import Mathlib

/-!
# Verification of the clarity-ai ambiguity-detection core

Shallow embedding of the Python backend (`src/backend/app/`) of the
clarity-ai requirements-analysis system, together with proofs settling the
frozen claims about its specification.

Python strings are modelled as `List Char` (one entry per code point, which
matches Python's `str` indexing); machine text operations (`str.strip`,
`str.lower`, `str.split`, slicing) are re-implemented over `List Char`
restricted to their ASCII behaviour, which is the fragment the code and all
claims exercise.
-/

namespace Clarity

/-- ASCII fragment of Python's `str.lower` applied to one character. -/
def pyLowerChar (c : Char) : Char :=
  if 'A' ≤ c ∧ c ≤ 'Z' then Char.ofNat (c.toNat + 32) else c

/-- Python `str.lower` (ASCII fragment). -/
def pyLower (l : List Char) : List Char := l.map pyLowerChar

/-- Python `str.strip()` with no arguments: remove whitespace from both ends. -/
def pyStrip (l : List Char) : List Char :=
  ((l.dropWhile Char.isWhitespace).reverse.dropWhile Char.isWhitespace).reverse

/-- Characters the sentence segmenter treats as terminators: the regex
character class `[.!?\n]` of `_segment_sentences`. -/
def isTermChar (c : Char) : Bool := c = '.' || c = '!' || c = '?' || c = '\n'

/-- Word characters for the regex `\b` word boundary (`\w` = `[A-Za-z0-9_]`
in the ASCII fragment the texts exercise). -/
def isWordChar (c : Char) : Bool := c.isAlphanum || c = '_'

/-- Whether position `k` of `text` holds a word character (out-of-range
counts as a non-word position, matching how `\b` treats the text edges). -/
def wordAt (text : List Char) (k : Nat) : Bool :=
  match text[k]? with
  | some c => isWordChar c
  | none => false

/-- The regex `\b` assertion holds between positions `p-1` and `p`:
exactly one of the two neighbouring positions holds a word character. -/
def boundaryAt (text : List Char) (p : Nat) : Bool :=
  (if p = 0 then false else wordAt text (p - 1)) != wordAt text p

/-- One match of the pattern `\b<term>\b` with `re.IGNORECASE` starting at
position `i`: the slice of length `term.length` equals `term`
case-insensitively and both ends sit on word boundaries.
(`_lexicon_scan` builds exactly this pattern from each lexicon term.) -/
def fullMatchAt (text term : List Char) (i : Nat) : Bool :=
  decide (i + term.length ≤ text.length) &&
  pyLower ((text.drop i).take term.length) == pyLower term &&
  boundaryAt text i && boundaryAt text (i + term.length)

/-- Embedding of `re.finditer` over the literal whole-word pattern: scan left to right,
emit non-overlapping matches, resume after each match.  `fuel` bounds the
recursion; `text.length + 1` is always enough for a nonempty term. -/
def findFrom (text term : List Char) : Nat → Nat → List (Nat × Nat)
  | _, 0 => []
  | i, fuel + 1 =>
    if i + term.length ≤ text.length then
      if fullMatchAt text term i then
        (i, i + term.length) :: findFrom text term (i + term.length) fuel
      else
        findFrom text term (i + 1) fuel
    else []

/-- All matches of `\b<term>\b` (with `re.IGNORECASE`) in `text`. -/
def findMatches (text term : List Char) : List (Nat × Nat) :=
  findFrom text term 0 (text.length + 1)

/-- Embedding of `re.finditer` over the sentence pattern `[^.!?\n]+[.!?\n]+` of
`_segment_sentences`: a maximal run of non-terminators followed by a maximal
run of terminators, scanning left to right.  Returns `(group, start, end)`
triples.  `fuel` bounds the recursion; each step consumes at least one
character, so `text.length + 1` is always enough. -/
def segMatchesFrom : List Char → Nat → Nat → List (List Char × Nat × Nat)
  | _, _, 0 => []
  | [], _, _ + 1 => []
  | c :: cs, pos, fuel + 1 =>
    if isTermChar c then segMatchesFrom cs (pos + 1) fuel
    else
      let body := (c :: cs).takeWhile (fun d => !isTermChar d)
      let rest := (c :: cs).drop body.length
      let terms := rest.takeWhile isTermChar
      if terms.isEmpty then []
      else
        let len := body.length + terms.length
        (body ++ terms, pos, pos + len) ::
          segMatchesFrom ((c :: cs).drop len) (pos + len) fuel

/-- A sentence with its `[start, end)` span in the original text. -/
structure Sentence where
  content : List Char
  startPos : Nat
  endPos : Nat
deriving DecidableEq, Repr

/-- Embeds `AmbiguityDetector._segment_sentences`: regex matches stripped and kept
only when nonempty, then the trailing unterminated text (if any) appended as
a final sentence; if no regex match fired, the whole stripped text is one
sentence. -/
def segment_sentences (text : List Char) : List Sentence :=
  let ms := segMatchesFrom text 0 (text.length + 1)
  let sentences := ms.filterMap (fun (g, s, e) =>
    let st := pyStrip g
    if st.isEmpty then none else some ⟨st, s, e⟩)
  if sentences.isEmpty then
    if (pyStrip text).isEmpty then [] else [⟨pyStrip text, 0, text.length⟩]
  else
    let lastEnd := (sentences.getLast?.map Sentence.endPos).getD 0
    if lastEnd < text.length then
      let remaining := pyStrip (text.drop lastEnd)
      if remaining.isEmpty then sentences
      else sentences ++ [⟨remaining, lastEnd, text.length⟩]
    else sentences

/-- Embeds `AmbiguityDetector._find_sentence_for_position`: the first sentence
whose span contains the position, else the first sentence, else empty. -/
def find_sentence_for_position (position : Nat) (sentences : List Sentence) :
    List Char :=
  match sentences.find? (fun s => s.startPos ≤ position && position < s.endPos) with
  | some s => s.content
  | none => ((sentences.head?.map Sentence.content).getD [])

/-- One flagged term occurrence, as produced by `_lexicon_scan`. -/
structure Occurrence where
  term : List Char
  position_start : Nat
  position_end : Nat
  sentence_context : List Char
deriving DecidableEq, Repr

/-- Embeds `AmbiguityDetector._lexicon_scan`: for each lexicon term collect all
whole-word case-insensitive matches (the recorded `term` is `match.group()`,
i.e. the slice of the original text with its casing), attach the containing
sentence, then stable-sort everything by start position. -/
def lexicon_scan (text : List Char) (lexicon : List (List Char)) :
    List Occurrence :=
  if lexicon.isEmpty then []
  else
    let sentences := segment_sentences text
    let flagged := lexicon.flatMap (fun term =>
      (findMatches text term).map (fun (s, e) =>
        { term := (text.drop s).take (e - s)
          position_start := s
          position_end := e
          sentence_context := find_sentence_for_position s sentences }))
    flagged.insertionSort (fun a b => a.position_start ≤ b.position_start)

/-- Result of `AmbiguityDetector.analyze_text`. -/
structure AnalysisResult where
  original_text : List Char
  flagged_terms : List Occurrence
  total_flagged : Nat
deriving DecidableEq, Repr

/-- Embeds `AmbiguityDetector.analyze_text` (the lexicon obtained from the lexicon
manager is passed as an explicit argument). -/
def analyze_text (text : List Char) (lexicon : List (List Char)) :
    AnalysisResult :=
  if text.isEmpty || (pyStrip text).isEmpty then
    { original_text := text, flagged_terms := [], total_flagged := 0 }
  else
    let flagged := lexicon_scan text lexicon
    { original_text := text, flagged_terms := flagged,
      total_flagged := flagged.length }

/-- Embeds `AmbiguityDetector.get_context_window`: `window_size` characters either
side of the term, clipped to the text, ellipses added exactly when clipping
cut text off, and the assembled string finally passed through `.strip()`. -/
def get_context_window (text : List Char) (position_start position_end : Nat)
    (window_size : Nat) : List Char :=
  let context_start := position_start - window_size
  let context_end := min text.length (position_end + window_size)
  let context := (text.drop context_start).take (context_end - context_start)
  let context := if 0 < context_start then "...".data ++ context else context
  let context := if context_end < text.length then context ++ "...".data else context
  pyStrip context

/-! ## JSON values and parsing (model of Python's `json.loads`) -/

/-- An unnormalized rational `num / den`: the value of a JSON number
(`json.loads` produces `int`/`float`; the only numeric field the code
inspects is a confidence compared against 0 and 1).  The parser only ever
produces positive powers of ten as denominators. -/
structure Frac where
  num : Int
  den : Nat
deriving DecidableEq, Repr

/-- The rational value of a `Frac`. -/
def Frac.toRat (f : Frac) : ℚ := (f.num : ℚ) / (f.den : ℚ)

/-- The predicate `0 ≤ f ≤ 1` on the raw fraction.  The positive-denominator conjunct is
the finiteness of the represented float: a zero denominator corresponds to
no finite `float`, and Python's comparison chain `0 <= confidence <= 1` is
false for non-finite values.  The JSON parser only produces positive
(power-of-ten) denominators. -/
def Frac.inUnit (f : Frac) : Prop :=
  0 < f.den ∧ 0 ≤ f.num ∧ f.num ≤ (f.den : Int)

instance (f : Frac) : Decidable f.inUnit := by unfold Frac.inUnit; infer_instance

/-- The predicate `f = 1/2`, representation-independently (sound once the denominator is
known positive). -/
def Frac.isHalf (f : Frac) : Prop := f.num * 2 = (f.den : Int)

instance (f : Frac) : Decidable f.isHalf := by unfold Frac.isHalf; infer_instance

/-- JSON values. -/
inductive Json where
  | null : Json
  | bool (b : Bool) : Json
  | num (q : Frac) : Json
  | str (s : List Char) : Json
  | arr (elems : List Json) : Json
  | obj (fields : List (List Char × Json)) : Json

/-- JSON insignificant whitespace. -/
def skipWs (l : List Char) : List Char :=
  l.dropWhile (fun c => c = ' ' || c = '\t' || c = '\n' || c = '\r')

/-- Hexadecimal digit value. -/
def hexVal (c : Char) : Option Nat :=
  if '0' ≤ c ∧ c ≤ '9' then some (c.toNat - '0'.toNat)
  else if 'a' ≤ c ∧ c ≤ 'f' then some (c.toNat - 'a'.toNat + 10)
  else if 'A' ≤ c ∧ c ≤ 'F' then some (c.toNat - 'A'.toNat + 10)
  else none

/-- Body of a JSON string after the opening quote, with the standard
escapes; returns the decoded characters and the remaining input. -/
def parseStringBody : Nat → List Char → Option (List Char × List Char)
  | 0, _ => none
  | _, [] => none
  | fuel + 1, c :: cs =>
    if c = '"' then some ([], cs)
    else if c = '\\' then
      match cs with
      | [] => none
      | e :: cs' =>
        let dec : Option (Char × List Char) :=
          if e = '"' then some ('"', cs')
          else if e = '\\' then some ('\\', cs')
          else if e = '/' then some ('/', cs')
          else if e = 'n' then some ('\n', cs')
          else if e = 't' then some ('\t', cs')
          else if e = 'r' then some ('\r', cs')
          else if e = 'b' then some (Char.ofNat 8, cs')
          else if e = 'f' then some (Char.ofNat 12, cs')
          else if e = 'u' then
            match cs' with
            | h1 :: h2 :: h3 :: h4 :: rest =>
              match hexVal h1, hexVal h2, hexVal h3, hexVal h4 with
              | some a, some b, some c', some d =>
                some (Char.ofNat (((a * 16 + b) * 16 + c') * 16 + d), rest)
              | _, _, _, _ => none
            | _ => none
          else none
        match dec with
        | some (d, rest) =>
          (parseStringBody fuel rest).map (fun p => (d :: p.1, p.2))
        | none => none
    else (parseStringBody fuel cs).map (fun p => (c :: p.1, p.2))

/-- Value of a digit run. -/
def digitsToNat (l : List Char) : Nat :=
  l.foldl (fun acc c => acc * 10 + (c.toNat - '0'.toNat)) 0

/-- JSON number: optional sign, integer part, optional fraction, optional
exponent. -/
def parseNumber (l : List Char) : Option (Frac × List Char) :=
  let (neg, l) := match l with
    | '-' :: rest => (true, rest)
    | _ => (false, l)
  let intDigits := l.takeWhile Char.isDigit
  if intDigits.isEmpty then none
  else
    let l := l.drop intDigits.length
    let (frac, l) := match l with
      | '.' :: rest =>
        let fd := rest.takeWhile Char.isDigit
        if fd.isEmpty then (none, '.' :: rest)
        else (some fd, rest.drop fd.length)
      | _ => (none, l)
    let (expPart, l) := match l with
      | e :: rest =>
        if e = 'e' ∨ e = 'E' then
          let (esign, rest') := match rest with
            | '-' :: r => ((-1 : Int), r)
            | '+' :: r => ((1 : Int), r)
            | _ => ((1 : Int), rest)
          let ed := rest'.takeWhile Char.isDigit
          if ed.isEmpty then (none, e :: rest)
          else (some (esign * (digitsToNat ed : Int)), rest'.drop ed.length)
        else (none, e :: rest)
      | [] => (none, [])
    let (baseNum, baseDen) : Int × Nat :=
      match frac with
      | some fd =>
        ((digitsToNat intDigits * 10 ^ fd.length + digitsToNat fd : Nat),
         10 ^ fd.length)
      | none => ((digitsToNat intDigits : Nat), 1)
    let signed : Int := if neg then -baseNum else baseNum
    let value : Frac :=
      match expPart with
      | some e =>
        if 0 ≤ e then ⟨signed * 10 ^ e.toNat, baseDen⟩
        else ⟨signed, baseDen * 10 ^ (-e).toNat⟩
      | none => ⟨signed, baseDen⟩
    some (value, l)

mutual

/-- One JSON value (recursive descent; `fuel` bounds nesting). -/
def parseVal : Nat → List Char → Option (Json × List Char)
  | 0, _ => none
  | fuel + 1, l =>
    match skipWs l with
    | [] => none
    | c :: cs =>
      if c = '"' then
        (parseStringBody (cs.length + 1) cs).map (fun p => (Json.str p.1, p.2))
      else if c = '{' then (parseFields fuel cs).map (fun p => (Json.obj p.1, p.2))
      else if c = '[' then (parseElems fuel cs).map (fun p => (Json.arr p.1, p.2))
      else if "true".data.isPrefixOf (c :: cs) then
        some (Json.bool true, (c :: cs).drop 4)
      else if "false".data.isPrefixOf (c :: cs) then
        some (Json.bool false, (c :: cs).drop 5)
      else if "null".data.isPrefixOf (c :: cs) then
        some (Json.null, (c :: cs).drop 4)
      else (parseNumber (c :: cs)).map (fun p => (Json.num p.1, p.2))

/-- Array elements, entered just after `[`. -/
def parseElems : Nat → List Char → Option (List Json × List Char)
  | 0, _ => none
  | fuel + 1, l =>
    match skipWs l with
    | ']' :: rest => some ([], rest)
    | l' => do
      let (v, r) ← parseVal fuel l'
      let (vs, r') ← parseElemsTail fuel r
      pure (v :: vs, r')

/-- Array continuation: `,` followed by more elements, or `]`. -/
def parseElemsTail : Nat → List Char → Option (List Json × List Char)
  | 0, _ => none
  | fuel + 1, l =>
    match skipWs l with
    | ']' :: rest => some ([], rest)
    | ',' :: rest => do
      let (v, r) ← parseVal fuel rest
      let (vs, r') ← parseElemsTail fuel r
      pure (v :: vs, r')
    | _ => none

/-- Object fields, entered just after `{`. -/
def parseFields : Nat → List Char → Option (List (List Char × Json) × List Char)
  | 0, _ => none
  | fuel + 1, l =>
    match skipWs l with
    | '}' :: rest => some ([], rest)
    | '"' :: cs => do
      let (k, r) ← parseStringBody (cs.length + 1) cs
      match skipWs r with
      | ':' :: r' => do
        let (v, r'') ← parseVal fuel r'
        let (fs, r''') ← parseFieldsTail fuel r''
        pure ((k, v) :: fs, r''')
      | _ => none
    | _ => none

/-- Object continuation: `,` followed by more fields, or `}`. -/
def parseFieldsTail : Nat → List Char → Option (List (List Char × Json) × List Char)
  | 0, _ => none
  | fuel + 1, l =>
    match skipWs l with
    | '}' :: rest => some ([], rest)
    | ',' :: rest =>
      match skipWs rest with
      | '"' :: cs => do
        let (k, r) ← parseStringBody (cs.length + 1) cs
        match skipWs r with
        | ':' :: r' => do
          let (v, r'') ← parseVal fuel r'
          let (fs, r''') ← parseFieldsTail fuel r''
          pure ((k, v) :: fs, r''')
        | _ => none
      | _ => none
    | _ => none

end

/-- Model of `json.loads`: parse one JSON value and require the rest of the
input to be whitespace. -/
def json_parse (s : List Char) : Option Json :=
  match parseVal (2 * s.length + 4) s with
  | some (v, rest) => if (skipWs rest).isEmpty then some v else none
  | none => none

/-! ## Response validation and fallback values

`validation_utils.py` (classes `InputSanitizer` and `LLMResponseValidator`)
is part of this repository but is not among the provided sources; only its
callers and its test suite are.  The validators below are therefore
modelled from the spec and from that test suite. -/

/-- A context-evaluation result (`ClassificationResult` of the spec). -/
structure EvalResult where
  is_ambiguous : Bool
  confidence : Frac
  reasoning : List Char
deriving DecidableEq, Repr

/-- Field lookup in a parsed JSON object.  `json.loads` builds a `dict`, in
which a duplicated key keeps its last value, hence the reversed search. -/
def lookupField (fields : List (List Char × Json)) (key : List Char) :
    Option Json :=
  (fields.reverse.find? (fun f => f.1 == key)).map (fun f => f.2)

/-- Modelled from the spec: `LLMResponseValidator.validate_context_evaluation`
(the class lives in `validation_utils.py`, which is missing from the provided
sources).  Per spec §4.3 and the repository's `test_validation_utils.py`: the
response must be an object with an `is_ambiguous` boolean, a `confidence`
number in `[0, 1]` and a `reasoning` string, otherwise a `ValueError` is
raised (modelled as `none`). -/
def validate_context_evaluation (j : Json) : Option EvalResult :=
  match j with
  | Json.obj fields =>
    match lookupField fields "is_ambiguous".data,
          lookupField fields "confidence".data,
          lookupField fields "reasoning".data with
    | some (Json.bool b), some (Json.num q), some (Json.str r) =>
      if q.inUnit then some ⟨b, q, r⟩ else none
    | _, _, _ => none
  | _ => none

/-- Modelled from the spec: `LLMResponseValidator.validate_suggestions`
(`validation_utils.py` is missing from the provided sources).  Per the
repository's `test_validation_utils.py`: the response must be a list; its
string entries of at least 5 characters are kept; fewer than 2 survivors is
a `ValueError`; at most 5 are returned. -/
def validate_suggestions (j : Json) : Option (List (List Char)) :=
  match j with
  | Json.arr elems =>
    let strs := elems.filterMap (fun e =>
      match e with
      | Json.str s => if 5 ≤ s.length then some s else none
      | _ => none)
    if strs.length < 2 then none else some (strs.take 5)
  | _ => none

/-- Modelled from the spec: `LLMResponseValidator.validate_batch_evaluation`
(`validation_utils.py` is missing from the provided sources).  Per spec §4.3
the batch path parses a JSON array and validates each element; an invalid
element raises (modelled as `none`), which the caller turns into a full
fallback batch. -/
def validate_batch_evaluation (elems : List Json) : Option (List EvalResult) :=
  elems.mapM validate_context_evaluation

/-- Python `str.split("\n")` (splits at every separator, keeping empties). -/
def splitOnChar (sep : Char) : List Char → List (List Char)
  | [] => [[]]
  | c :: cs =>
    if c = sep then [] :: splitOnChar sep cs
    else
      match splitOnChar sep cs with
      | [] => [[c]]
      | h :: t => (c :: h) :: t

/-- The markdown code-fence stripping shared by
`ContextAnalyzer._parse_evaluation_response`, `_parse_batch_response` and
`SuggestionGenerator._parse_suggestions_response`: strip the response, and
if it starts with a fence, keep exactly the lines between fence lines. -/
def stripFencesLines (resp : List Char) : List Char :=
  let r := pyStrip resp
  if "```".data.isPrefixOf r then
    let lines := splitOnChar '\n' r
    let kept := (lines.foldl
      (fun (acc : List (List Char) × Bool) line =>
        if "```".data.isPrefixOf line then (acc.1, !acc.2)
        else if acc.2 then (acc.1 ++ [line], acc.2) else acc)
      ([], false)).1
    List.intercalate "\n".data kept
  else r

/-- The conservative default of `_parse_evaluation_response` and friends:
ambiguous with confidence `0.5` (in the code the reasoning interpolates the
caught exception's message; the message text is abstracted here). -/
def fallbackEval (reason : List Char) : EvalResult :=
  { is_ambiguous := true, confidence := ⟨1, 2⟩, reasoning := reason }

/-- The parse-and-validate pipeline of
`ContextAnalyzer._parse_evaluation_response` before its `except` clause. -/
def evalParsed (resp : List Char) : Option EvalResult :=
  (json_parse (stripFencesLines resp)).bind validate_context_evaluation

/-- Embeds `ContextAnalyzer._parse_evaluation_response`: any parse or validation
failure is caught and replaced by the conservative default. -/
def parse_evaluation_response (resp : List Char) : EvalResult :=
  match evalParsed resp with
  | some r => r
  | none => fallbackEval "Failed to parse LLM response".data

/-- Embeds `SuggestionGenerator._get_fallback_suggestions`: the three deterministic
template suggestions returned whenever the LLM path fails. -/
def get_fallback_suggestions (term : List Char) : List (List Char) :=
  ["Define specific metrics or thresholds for '".data ++ term ++ "'".data,
   "Specify measurable criteria for '".data ++ term ++ "'".data,
   "Provide quantifiable requirements for '".data ++ term ++ "'".data]

/-- The parse-and-validate pipeline of
`SuggestionGenerator._parse_suggestions_response` before its `except`. -/
def suggestionsParsed (resp : List Char) : Option (List (List Char)) :=
  (json_parse (stripFencesLines resp)).bind validate_suggestions

/-- Embeds `SuggestionGenerator._parse_suggestions_response`: validated suggestions
capped at 3, any failure replaced by the fallback templates. -/
def parse_suggestions_response (resp : List Char) : List (List Char) :=
  match suggestionsParsed resp with
  | some v => v.take 3
  | none => get_fallback_suggestions []

/-- Embeds `ContextAnalyzer._parse_batch_response`: parse a JSON array, validate
every element, pad with fallback entries up to `expected` and truncate down
to `expected`; any failure (non-array, parse error, invalid element) yields
`expected` fallback entries. -/
def parse_batch_response (resp : List Char) (expected : Nat) : List EvalResult :=
  match json_parse (stripFencesLines resp) with
  | some (Json.arr elems) =>
    match validate_batch_evaluation elems with
    | some results =>
      (results ++ List.replicate (expected - results.length)
        (fallbackEval "Missing result from batch evaluation".data)).take expected
    | none =>
      List.replicate expected (fallbackEval "Failed to parse batch response".data)
  | _ =>
    List.replicate expected (fallbackEval "Failed to parse batch response".data)

/-! ## Batch evaluation (`ContextAnalyzer.batch_evaluate` and helpers)

The LLM itself is an external collaborator; its behaviour is a parameter of
the embedding.  `batchReply chunk = none` models `chain.invoke` raising
inside `evaluate_batch_optimized`; `singleReply item = none` models it
raising inside `evaluate_term_in_context`; `sanitizeFails item` models
`InputSanitizer.sanitize_for_llm_prompt` (from the missing
`validation_utils.py`) raising `ValueError`; `chunkCrash chunk` models
`future.result()` raising in `_parallel_batch_evaluate`'s collection loop.
Rate limiting (`_apply_rate_limit`) only sleeps and is invisible to the
values computed, so it is not modelled. -/

/-- One classification input: `(term, sentence, surrounding_context)`. -/
structure EvalItem where
  term : List Char
  sentence : List Char
  context : Option (List Char)
deriving DecidableEq, Repr

/-- The external LLM collaborator and failure injection points. -/
structure LLMOracle where
  batchReply : List EvalItem → Option (List Char)
  singleReply : EvalItem → Option (List Char)
  sanitizeFails : EvalItem → Bool
  chunkCrash : List EvalItem → Bool

/-- Embeds `ContextAnalyzer.evaluate_term_in_context`: sanitize (a `ValueError`
yields the invalid-input default), invoke, parse; an invocation error
yields the conservative default. -/
def evaluate_term_in_context (o : LLMOracle) (item : EvalItem) : EvalResult :=
  if o.sanitizeFails item then
    { is_ambiguous := true, confidence := ⟨1, 2⟩,
      reasoning := "Invalid input detected".data }
  else
    match o.singleReply item with
    | some resp => parse_evaluation_response resp
    | none => fallbackEval "Error during evaluation".data

/-- Embeds `ContextAnalyzer._fallback_sequential_evaluate`: one individual
evaluation per item (its per-item `except` can never fire in the embedding,
since `evaluate_term_in_context` is total). -/
def fallback_sequential_evaluate (o : LLMOracle) (items : List EvalItem) :
    List EvalResult :=
  items.map (evaluate_term_in_context o)

/-- Embeds `ContextAnalyzer.evaluate_batch_optimized`: one API call for the whole
chunk, parsed by `_parse_batch_response`; if the call raises, fall back to
sequential individual evaluation. -/
def evaluate_batch_optimized (o : LLMOracle) (items : List EvalItem) :
    List EvalResult :=
  if items.isEmpty then []
  else
    match o.batchReply items with
    | some resp => parse_batch_response resp items.length
    | none => fallback_sequential_evaluate o items

/-- Split a list into chunks of size `m + 1`
(`terms[i:i + batch_size] for i in range(0, len(terms), batch_size)`). -/
def chunksAux (m : Nat) : List α → List (List α)
  | [] => []
  | x :: xs => (x :: xs.take m) :: chunksAux m (xs.drop m)
termination_by l => l.length
decreasing_by simp only [List.length_drop, List.length_cons]; omega

/-- Chunks of size `n` (callers guarantee `0 < n`). -/
def chunksOf (n : Nat) (l : List α) : List (List α) := chunksAux (n - 1) l

/-- The fallback entry used when a whole parallel chunk fails. -/
def chunkCrashFallback : EvalResult :=
  fallbackEval "Error in parallel processing".data

/-- One chunk's results as collected by `_parallel_batch_evaluate`: the
chunk's future either delivers `evaluate_batch_optimized` or raises, in
which case the chunk's slots are filled with fallback entries. -/
def runChunk (o : LLMOracle) (chunk : List EvalItem) : List EvalResult :=
  if o.chunkCrash chunk then List.replicate chunk.length chunkCrashFallback
  else evaluate_batch_optimized o chunk

/-- Write `vals` into `acc` starting at index `start` (the
`results[start_idx + i] = result` loop). -/
def writeAt (acc : List (Option α)) (start : Nat) : List α → List (Option α)
  | [] => acc
  | v :: vs => writeAt (acc.set start (some v)) (start + 1) vs

/-- The chunk-placement loop of `_parallel_batch_evaluate`: place chunk
`idx` at offset `idx * batchSize` and continue.  Completion order does not
matter because the writes target disjoint index ranges; the embedding
performs them in chunk order. -/
def placeChunks (o : LLMOracle) (batchSize : Nat) :
    List (List EvalItem) → Nat → List (Option EvalResult) →
      List (Option EvalResult)
  | [], _, acc => acc
  | c :: cs, idx, acc =>
    placeChunks o batchSize cs (idx + 1)
      (writeAt acc (idx * batchSize) (runChunk o c))

/-- Embeds `ContextAnalyzer._parallel_batch_evaluate`: split into chunks, run each
chunk, and place each chunk's results back at `chunk_idx * batch_size + i`
into a `None`-prefilled result list. -/
def parallel_batch_evaluate (o : LLMOracle) (batchSize : Nat)
    (terms : List EvalItem) : List (Option EvalResult) :=
  placeChunks o batchSize (chunksOf batchSize terms) 0
    (List.replicate terms.length none)

/-- Embeds `ContextAnalyzer.batch_evaluate`: empty input short-circuits, small
inputs use one optimized batch call, larger ones the parallel path.  The
`Option` records which slots of the Python result list (pre-filled with
`None`) were written; the order theorem shows every slot is written. -/
def batch_evaluate (o : LLMOracle) (batchSize : Nat) (terms : List EvalItem) :
    List (Option EvalResult) :=
  if terms.isEmpty then []
  else if terms.length ≤ batchSize then
    (evaluate_batch_optimized o terms).map some
  else parallel_batch_evaluate o batchSize terms

/-! ## Lexicon manager (`lexicon_manager.py`)

The database and the class-level cache are explicit state; `utcnow` is an
explicit `now : Nat` argument.  Terms, categories and owner ids are kept as
`String` (only compared for equality / lowercased, never sliced). -/

/-- One `AmbiguityLexicon` row. -/
structure LexRow where
  term : String
  type : String
  owner_id : Option String
  category : Option String
deriving DecidableEq, Repr

/-- One cache entry: the computed term list and its timestamp. -/
structure CacheEntry where
  terms : List String
  timestamp : Nat
deriving DecidableEq, Repr

/-- The manager's mutable state: database rows plus the in-memory cache
(modelled as an association list with at most one live binding per key,
first binding wins, like a `dict`). -/
structure LexState where
  db : List LexRow
  cache : List (String × CacheEntry)
deriving Repr

/-- Python `self._cache.get(key)`. -/
def cacheLookup (cache : List (String × CacheEntry)) (key : String) :
    Option CacheEntry :=
  (cache.find? (fun p => p.1 == key)).map (fun p => p.2)

/-- Python `self._cache[key] = entry` (replace any existing binding). -/
def cacheInsert (cache : List (String × CacheEntry)) (key : String)
    (entry : CacheEntry) : List (String × CacheEntry) :=
  (key, entry) :: cache.filter (fun p => p.1 ≠ key)

/-- Python `del self._cache[key]` guarded by `key in self._cache`. -/
def cacheDelete (cache : List (String × CacheEntry)) (key : String) :
    List (String × CacheEntry) :=
  cache.filter (fun p => p.1 ≠ key)

/-- Python `str.lower` on a `String` (ASCII fragment). -/
def pyLowerStr (s : String) : String := ⟨pyLower s.data⟩

/-- Python `str.strip()` on a `String`. -/
def pyStripStr (s : String) : String := ⟨pyStrip s.data⟩

/-- The cache key `f"lexicon_{owner_id or 'global'}"`: `None` *and the empty string* both
fall back to `'global'` (Python truthiness). -/
def cacheKey (owner : Option String) : String :=
  "lexicon_" ++ (match owner with
    | some o => if o = "" then "global" else o
    | none => "global")

/-- The cache TTL (`timedelta(hours=1)`), in abstract time units. -/
def cacheTTL : Nat := 3600

/-- The lexicon `get_lexicon` computes from the database on a cache miss:
global terms, plus the owner's `custom_include` terms, minus the owner's
`custom_exclude` terms (a Python `set`), sorted.  The owner-specific
branches sit behind the code's `if owner_id:` truthiness guard, so they are
skipped for a `None` *and* for an empty owner id. -/
def computeLexicon (db : List LexRow) (owner : Option String) : List String :=
  let globalTerms : Finset String :=
    ((db.filter (fun r => r.type = "global" ∧ r.owner_id = none)).map
      (fun r => pyLowerStr r.term)).toFinset
  let effective : Finset String :=
    match owner with
    | none => globalTerms
    | some o =>
      if o = "" then globalTerms
      else
        (globalTerms ∪
          ((db.filter (fun r => r.type = "custom_include" ∧ r.owner_id = some o)).map
            (fun r => pyLowerStr r.term)).toFinset) \
          ((db.filter (fun r => r.type = "custom_exclude" ∧ r.owner_id = some o)).map
            (fun r => pyLowerStr r.term)).toFinset
  effective.sort (· ≤ ·)

/-- Embeds `LexiconManager.get_lexicon`: serve a fresh cache entry, otherwise
compute from the database and cache the result with the current time. -/
def get_lexicon (s : LexState) (owner : Option String) (now : Nat) :
    List String × LexState :=
  let key := cacheKey owner
  match cacheLookup s.cache key with
  | some entry =>
    if now - entry.timestamp < cacheTTL then (entry.terms, s)
    else
      let result := computeLexicon s.db owner
      (result, { s with cache := cacheInsert s.cache key ⟨result, now⟩ })
  | none =>
    let result := computeLexicon s.db owner
    (result, { s with cache := cacheInsert s.cache key ⟨result, now⟩ })

/-- Embeds `LexiconManager._invalidate_cache`: delete the owner's key and, when an
owner id is present (and truthy), also the global key. -/
def invalidate_cache (cache : List (String × CacheEntry)) (owner : Option String) :
    List (String × CacheEntry) :=
  let c := cacheDelete cache (cacheKey owner)
  match owner with
  | some o => if o = "" then c else cacheDelete c "lexicon_global"
  | none => c

/-- Embeds `LexiconManager.add_term`: normalize (`term.lower().strip()`), reject
empty, reject an existing `(term, type, owner_id)` row, otherwise append
the row and invalidate the cache. -/
def add_term (s : LexState) (term : String) (owner : Option String)
    (term_type : String) (category : Option String) : Bool × LexState :=
  let t := pyStripStr (pyLowerStr term)
  if t = "" then (false, s)
  else if (s.db.find? (fun r =>
      r.term == t && r.type == term_type && r.owner_id == owner)).isSome then
    (false, s)
  else
    (true,
     { db := s.db ++ [⟨t, term_type, owner, category⟩],
       cache := invalidate_cache s.cache owner })

/-- Embeds `LexiconManager.remove_term`: normalize, delete the first matching
`(term, type, owner_id)` row if any and invalidate the cache, else report
`False`. -/
def remove_term (s : LexState) (term : String) (owner : Option String)
    (term_type : String) : Bool × LexState :=
  let t := pyStripStr (pyLowerStr term)
  let isTarget := fun (r : LexRow) =>
    r.term == t && r.type == term_type && r.owner_id == owner
  if (s.db.find? isTarget).isSome then
    (true,
     { db := s.db.eraseP isTarget,
       cache := invalidate_cache s.cache owner })
  else (false, s)

/-! ## Validated-retry invocation
(`ContradictionAnalysisService._invoke_llm_with_retry`)

The provider is a parameter: `invoke attempt prompt` is the reply to the
`attempt`-th call (`.ok` a response string, `.err` a transport/provider
exception).  Pydantic's `model_validate_json` is likewise a parameter
`validate`, so the theorems hold for any schema validator; a concrete
validator for `ContradictionReportLLM` is provided for witnesses.  The
function also returns the list of prompts actually sent, which is the
observable the spec's retry-with-feedback property talks about. -/

/-- Python `str.split(sep)` for a nonempty separator: split at each
non-overlapping occurrence, left to right, keeping empty segments.  `fuel`
bounds the recursion; `l.length + 1` always suffices. -/
def splitOnListAux (sep : List Char) : Nat → List Char → List (List Char)
  | 0, l => [l]
  | _ + 1, [] => [[]]
  | fuel + 1, c :: cs =>
    if sep ≠ [] ∧ sep.isPrefixOf (c :: cs) then
      [] :: splitOnListAux sep fuel ((c :: cs).drop sep.length)
    else
      match splitOnListAux sep fuel cs with
      | [] => [[c]]
      | h :: t => (c :: h) :: t

/-- Python `str.split(sep)`. -/
def splitOnList (sep l : List Char) : List (List Char) :=
  splitOnListAux sep (l.length + 1) l

/-- Python `sep in s`: does `pat` occur contiguously in `l`? -/
def containsList (pat l : List Char) : Bool :=
  (List.range (l.length + 1)).any (fun i => pat.isPrefixOf (l.drop i))

/-- Outcome of one provider call. -/
inductive LLMReply where
  | ok (response : List Char) : LLMReply
  | err (message : List Char) : LLMReply

/-- The external provider, indexed by attempt number (modelling a mock with
per-call `side_effect`s). -/
structure RetryOracle where
  invoke : Nat → List Char → LLMReply

/-- One conflicting pair reported by the LLM (shape pinned by
`test_contradiction_analysis_service.py`). -/
structure LLMConflict where
  conflict_id : List Char
  reason : List Char
  conflicting_requirement_ids : List (List Char)
deriving DecidableEq, Repr

/-- Embeds `schemas.ContradictionReportLLM` (the class is referenced from
`contradiction_analysis_service.py` but missing from the provided
`schemas.py`; shape modelled from the spec and the service's test suite). -/
structure ContradictionReportLLM where
  contradictions : List LLMConflict
deriving DecidableEq, Repr

/-- The schema's empty default, `ContradictionReportLLM(contradictions=[])`. -/
def emptyReport : ContradictionReportLLM := ⟨[]⟩

/-- The fence stripping of `_invoke_llm_with_retry`:
`response_str.split("```json")[1].split("```")[0].strip()` when a
```` ```json ```` fence is present, else the segment after the first
generic fence, else the raw string. -/
def stripFencesContra (resp : List Char) : List Char :=
  if containsList "```json".data resp then
    pyStrip ((splitOnList "```".data
      ((splitOnList "```json".data resp).getD 1 [])).getD 0 [])
  else if containsList "```".data resp then
    pyStrip ((splitOnList "```".data resp).getD 1 [])
  else resp

/-- Modelled from the spec: `prompts.get_json_correction_prompt` (referenced
from `contradiction_analysis_service.py` but missing from the provided
`prompts.py`).  Per spec §4.5 it embeds the previous invalid output and the
specific validation error into a correction prompt. -/
def get_json_correction_prompt (bad_json validation_error : List Char) :
    List Char :=
  "Your previous response failed validation with the following error: ".data ++
  validation_error ++
  "\nYour previous invalid response was:\n".data ++ bad_json ++
  "\nPlease return a corrected response that is valid JSON strictly following the requested schema.".data

/-- A schema validator: pydantic's `model_validate_json`, returning either a
validated model or a `ValidationError` message. -/
def SchemaValidator := List Char → Except (List Char) ContradictionReportLLM

/-- The attempt loop of `_invoke_llm_with_retry`.  `attempt` is the Python
loop counter; `remaining` counts the retries still allowed, so
`attempt == max_retries` in the code corresponds to `remaining = 0`.
Returns the validated result (or empty default) together with the prompts
sent, in order. -/
def retryLoop (o : RetryOracle) (v : SchemaValidator) :
    Nat → Nat → List Char → ContradictionReportLLM × List (List Char)
  | remaining, attempt, prompt =>
    match o.invoke attempt prompt with
    | LLMReply.err _ => (emptyReport, [prompt])
    | LLMReply.ok resp =>
      let cleaned := stripFencesContra resp
      match v cleaned with
      | Except.ok report => (report, [prompt])
      | Except.error e =>
        match remaining with
        | 0 => (emptyReport, [prompt])
        | remaining' + 1 =>
          let next := get_json_correction_prompt cleaned e
          ((retryLoop o v remaining' (attempt + 1) next).1,
           prompt :: (retryLoop o v remaining' (attempt + 1) next).2)

/-- Embeds `ContradictionAnalysisService._invoke_llm_with_retry` with
`max_retries` attempts beyond the first (`self.max_retries = 2` in the
service's constructor). -/
def invoke_llm_with_retry (o : RetryOracle) (v : SchemaValidator)
    (maxRetries : Nat) (initialPrompt : List Char) :
    ContradictionReportLLM × List (List Char) :=
  retryLoop o v maxRetries 0 initialPrompt

/-- Modelled from the spec: the pydantic validation
`ContradictionReportLLM.model_validate_json` (the schema class is missing
from the provided `schemas.py`): the string must parse as JSON and hold an
object whose `contradictions` field is an array of objects with a string
`conflict_id`, a string `reason` and a string-array
`conflicting_requirement_ids`. -/
def validateContradictionReport : SchemaValidator := fun s =>
  match json_parse s with
  | none => Except.error "Invalid JSON".data
  | some j =>
    match j with
    | Json.obj fields =>
      match lookupField fields "contradictions".data with
      | some (Json.arr elems) =>
        match elems.mapM (fun e =>
          match e with
          | Json.obj f =>
            match lookupField f "conflict_id".data,
                  lookupField f "reason".data,
                  lookupField f "conflicting_requirement_ids".data with
            | some (Json.str cid), some (Json.str reason),
              some (Json.arr ids) =>
              (ids.mapM (fun i =>
                match i with
                | Json.str s' => some s'
                | _ => none)).map (fun ids' => LLMConflict.mk cid reason ids')
            | _, _, _ => none
          | _ => none) with
        | some conflicts => Except.ok ⟨conflicts⟩
        | none => Except.error "contradictions element failed validation".data
      | _ => Except.error "contradictions field missing or not a list".data
    | _ => Except.error "Input should be an object".data

/-- No two rows share the same `(term, type, owner_id)` triple — the
uniqueness invariant `add_term` maintains (spec §3: "within a scope, text
is unique per owner"). -/
def DbNoDup (db : List LexRow) : Prop :=
  db.Pairwise (fun a b => ¬(a.term = b.term ∧ a.type = b.type ∧
    a.owner_id = b.owner_id))

/-- Every stored term is already lowercased — maintained by `add_term`'s
normalization. -/
def DbNormalized (db : List LexRow) : Prop :=
  ∀ r ∈ db, pyLowerStr r.term = r.term

/-- Every live cache entry holds exactly the lexicon computable from the
current database for its owner — the consistency that cache invalidation
synchronous with writes maintains. -/
def CacheConsistent (s : LexState) : Prop :=
  ∀ (ow : Option String) (entry : CacheEntry),
    cacheLookup s.cache (cacheKey ow) = some entry →
    entry.terms = computeLexicon s.db ow

/-- Shape of a chunk list: every chunk but the last has exactly the batch
size, and the last is nonempty and no longer than the batch size. -/
def ChunkShape (bs : Nat) : List (List α) → Prop
  | [] => True
  | [c] => 0 < c.length ∧ c.length ≤ bs
  | c :: c' :: cs => c.length = bs ∧ ChunkShape bs (c' :: cs)

/-- A fixed sample provider for the witnesses: the batch call always
raises, individual calls return no usable reply, nothing crashes. -/
def sampleOracle : LLMOracle where
  batchReply := fun _ => none
  singleReply := fun _ => none
  sanitizeFails := fun _ => false
  chunkCrash := fun _ => false

/-- A fixed sample batch of three classification inputs. -/
def sampleItems : List EvalItem :=
  [⟨"fast".data, "be fast".data, none⟩,
   ⟨"easy".data, "be easy".data, none⟩,
   ⟨"safe".data, "be safe".data, none⟩]

/-- A sample provider whose every call fails with a transport error. -/
def sampleErrOracle : RetryOracle where
  invoke := fun _ _ => LLMReply.err "API timeout".data

/-- A sample provider mock returning invalid JSON on the first call and
valid JSON on the second (the spec's retry-with-feedback scenario). -/
def sampleRetryOracle : RetryOracle where
  invoke := fun att _ =>
    if att = 0 then LLMReply.ok "\x7b\"contradictions\": \"not an array\"\x7d".data
    else LLMReply.ok "\x7b\"contradictions\": []\x7d".data

/-- A sample schema validator that rejects everything. -/
def sampleFailValidator : SchemaValidator :=
  fun _ => Except.error "Invalid JSON".data

/-! ## Claim-side definitions (refinement targets) -/

/-- The context window exactly as claim C9 words it: `windowSize` characters
before `start` and after `end`, clipped to the text bounds, with an ellipsis
prefixed exactly when characters before the window were cut off and suffixed
exactly when characters after it were cut off — and nothing else. -/
def specContextWindow (text : List Char) (ps pe ws : Nat) : List Char :=
  (if ws < ps then "...".data else []) ++
  ((text.take ps).drop (ps - ws)) ++
  ((text.take pe).drop ps) ++
  ((text.drop pe).take ws) ++
  (if pe + ws < text.length then "...".data else [])

/-! ## Theorems settling the claims -/

/-- Core slice decomposition behind claim C9: the clipped window around
`[ps, pe)` splits into the clipped before-window, the term itself, and the
clipped after-window. -/
theorem window_slice_decomp (text : List Char) (ps pe ws : Nat)
    (h1 : ps ≤ pe) (h2 : pe ≤ text.length) :
    (text.drop (ps - ws)).take (min text.length (pe + ws) - (ps - ws))
    = ((text.take ps).drop (ps - ws)) ++
      (((text.take pe).drop ps) ++ ((text.drop pe).take ws)) := by
  have hcs : ps - ws ≤ ps := Nat.sub_le ps ws
  have hce : pe ≤ min text.length (pe + ws) := by omega
  have harith : min text.length (pe + ws) - (ps - ws)
      = (ps - (ps - ws)) + ((pe - ps) + (min text.length (pe + ws) - pe)) := by
    omega
  rw [harith, List.take_add, List.take_add, List.drop_drop, List.drop_drop]
  have e1 : ps - ws + (ps - (ps - ws)) = ps := by omega
  have e2 : ps + (pe - ps) = pe := by omega
  rw [e1, e2, List.drop_take, List.drop_take]
  have e3 : (text.drop pe).take ws
      = (text.drop pe).take (min text.length (pe + ws) - pe) := by
    rcases le_or_lt (pe + ws) text.length with h | h
    · have : min text.length (pe + ws) - pe = ws := by omega
      rw [this]
    · have : min text.length (pe + ws) - pe = text.length - pe := by omega
      rw [this, List.take_of_length_le, List.take_of_length_le]
      · simp only [List.length_drop]; omega
      · simp only [List.length_drop]; omega
  rw [e3]

/-- Claim C9, counterexample: on `" a "` with `start = 1`, `end = 2`,
`windowSize = 1`, the code returns `"a"`, not the one-character-each-side
window `" a "` the claim describes — the final `.strip()` removed the
whitespace inside the window. -/
theorem c9_counterexample :
    get_context_window " a ".data 1 2 1 = "a".data ∧
    specContextWindow " a ".data 1 2 1 = " a ".data ∧
    get_context_window " a ".data 1 2 1 ≠ specContextWindow " a ".data 1 2 1 := by
  refine ⟨by decide, by decide, by decide⟩

/-- Claim C9 (amended): for every text and every valid `(start, end,
windowSize)` (`start ≤ end ≤ length`), the context-window operation returns
the `windowSize` characters before `start` and after `end` clipped to the
text bounds, with an ellipsis prefixed exactly when characters before the
window were cut off and suffixed exactly when characters after it were cut
off — *with surrounding whitespace then trimmed from the assembled string*
(`.strip()`). -/
theorem c9_context_window (text : List Char) (ps pe ws : Nat)
    (h1 : ps ≤ pe) (h2 : pe ≤ text.length) :
    get_context_window text ps pe ws = pyStrip (specContextWindow text ps pe ws) := by
  unfold get_context_window specContextWindow
  have hpre : (0 < ps - ws) ↔ (ws < ps) := by omega
  have hsuf : (min text.length (pe + ws) < text.length) ↔ (pe + ws < text.length) := by
    omega
  have hcore := window_slice_decomp text ps pe ws h1 h2
  dsimp only
  simp only [hpre, hsuf]
  split_ifs <;> simp [hcore, List.append_assoc]

/-- Witness for `c9_context_window` at `text = " a "`, `start = 1`,
`end = 2`, `windowSize = 1`. -/
theorem c9_witness :
    (1 ≤ 2 ∧ 2 ≤ " a ".data.length) ∧
    get_context_window " a ".data 1 2 1
      = pyStrip (specContextWindow " a ".data 1 2 1) :=
  ⟨⟨by decide, by decide⟩, c9_context_window " a ".data 1 2 1 (by decide) (by decide)⟩

/-- Every span emitted by the match scanner is a genuine whole-word match:
it ends `term.length` after it starts and satisfies `fullMatchAt`. -/
theorem mem_findFrom {text term : List Char} :
    ∀ {fuel i s e}, (s, e) ∈ findFrom text term i fuel →
      e = s + term.length ∧ fullMatchAt text term s = true := by
  intro fuel
  induction fuel with
  | zero => intro i s e h; simp [findFrom] at h
  | succ n ih =>
    intro i s e h
    simp only [findFrom] at h
    split_ifs at h with hlen hmatch
    · rcases List.mem_cons.mp h with heq | hrec
      · obtain ⟨hs, he⟩ := Prod.mk.injEq .. ▸ heq
        injection heq with hs he
        subst hs; subst he
        exact ⟨rfl, hmatch⟩
      · exact ih hrec
    · exact ih h
    · simp at h

/-- Every occurrence reported by `_lexicon_scan` comes from a whole-word
match of a lexicon term: its span is a match span and its recorded term is
the text slice over that span. -/
theorem mem_lexicon_scan {text : List Char} {lexicon : List (List Char)}
    {occ : Occurrence} (hocc : occ ∈ lexicon_scan text lexicon) :
    ∃ term ∈ lexicon,
      occ.position_end = occ.position_start + term.length ∧
      fullMatchAt text term occ.position_start = true ∧
      occ.term = (text.drop occ.position_start).take
        (occ.position_end - occ.position_start) := by
  unfold lexicon_scan at hocc
  split_ifs at hocc with hemp
  · simp at hocc
  · rw [List.mem_insertionSort] at hocc
    obtain ⟨term, hterm, hmem⟩ := List.mem_flatMap.mp hocc
    obtain ⟨⟨s, e⟩, hse, heq⟩ := List.mem_map.mp hmem
    obtain ⟨hlen, hmatch⟩ := mem_findFrom hse
    subst heq
    exact ⟨term, hterm, by simpa using hlen, by simpa using hmatch, rfl⟩

/-- Claim C10: every occurrence has `position_start < position_end`, its
`term` field is exactly the original text's slice over its span (so the
casing is the text's, not the lowercased lexicon form), and
`total_flagged` equals the length of `flagged_terms`.  (The lexicon terms
are nonempty: `add_term` rejects empty normalized terms.) -/
theorem c10_invariants (text : List Char) (lexicon : List (List Char))
    (hne : ∀ t ∈ lexicon, t ≠ []) :
    (∀ occ ∈ (analyze_text text lexicon).flagged_terms,
        occ.position_start < occ.position_end ∧
        occ.term = (text.drop occ.position_start).take
          (occ.position_end - occ.position_start)) ∧
    (analyze_text text lexicon).total_flagged
      = (analyze_text text lexicon).flagged_terms.length := by
  constructor
  · intro occ hocc
    have hscan : occ ∈ lexicon_scan text lexicon := by
      unfold analyze_text at hocc
      split_ifs at hocc with h
      · simp at hocc
      · simpa using hocc
    obtain ⟨term, hterm, hlen, _, hslice⟩ := mem_lexicon_scan hscan
    refine ⟨?_, hslice⟩
    have : term ≠ [] := hne term hterm
    have : 0 < term.length := List.length_pos.mpr this
    omega
  · unfold analyze_text
    split_ifs <;> simp

/-- Unpack a successful `fullMatchAt` into its boundary components. -/
theorem fullMatchAt_boundaries {text term : List Char} {s : Nat}
    (h : fullMatchAt text term s = true) :
    boundaryAt text s = true ∧ boundaryAt text (s + term.length) = true := by
  unfold fullMatchAt at h
  simp only [Bool.and_eq_true] at h
  exact ⟨h.1.2, h.2⟩

/-- A true `boundaryAt` forbids word characters on both sides. -/
theorem boundaryAt_not_inside {text : List Char} {p : Nat}
    (h : boundaryAt text p = true) :
    p = 0 ∨ wordAt text (p - 1) = false ∨ wordAt text p = false := by
  unfold boundaryAt at h
  by_cases hp : p = 0
  · exact Or.inl hp
  · right
    rw [if_neg hp] at h
    rcases hw : wordAt text (p - 1) <;> rcases hw' : wordAt text p <;>
      simp_all

/-- Claim C2, counterexample: scanning `"a fast-track, not fast."` with
lexicon `{"fast"}` yields **two** occurrences, not one: the regex `\b` word
boundary holds on both sides of the `"fast"` inside `"fast-track"`, because
the hyphen is not a word character (the repository's own
`test_lexicon_scan_finds_terms` asserts 4 occurrences for the same reason). -/
theorem c2_counterexample :
    (lexicon_scan "a fast-track, not fast.".data ["fast".data]).length = 2 ∧
    (lexicon_scan "a fast-track, not fast.".data ["fast".data]).length ≠ 1 := by
  exact ⟨by decide, by decide⟩

/-- Claim C2 (amended): term matching is whole-word and case-insensitive —
a match never starts or ends at a position where the adjacent characters on
both sides are word characters (`[A-Za-z0-9_]`), so `"fast"` does not match
inside `"breakfast"`; but a hyphen *is* a word boundary, so scanning
`"a fast-track, not fast."` with lexicon `{"fast"}` yields exactly two
occurrences, the one inside `"fast-track"` at offset 2 and the standalone
one at offset 18. -/
theorem c2_whole_word :
    (∀ (text : List Char) (lexicon : List (List Char)),
      (∀ t ∈ lexicon, t ≠ []) →
      ∀ occ ∈ lexicon_scan text lexicon,
        (occ.position_start = 0 ∨
         wordAt text (occ.position_start - 1) = false ∨
         wordAt text occ.position_start = false) ∧
        (wordAt text (occ.position_end - 1) = false ∨
         wordAt text occ.position_end = false))
  ∧ (lexicon_scan "breakfast".data ["fast".data] = [])
  ∧ ((lexicon_scan "a fast-track, not fast.".data ["fast".data]).map
      (fun o => (o.position_start, o.position_end)) = [(2, 6), (18, 22)]) := by
  refine ⟨?_, by decide, by decide⟩
  intro text lexicon hne occ hocc
  obtain ⟨term, hterm, hlen, hmatch, _⟩ := mem_lexicon_scan hocc
  obtain ⟨hb1, hb2⟩ := fullMatchAt_boundaries hmatch
  constructor
  · exact boundaryAt_not_inside hb1
  · have := boundaryAt_not_inside hb2
    have hpos : 0 < term.length :=
      List.length_pos.mpr (hne term hterm)
    rcases this with h0 | h
    · omega
    · rw [hlen]; exact h

/-- Witness for `c2_whole_word`'s universally quantified part, at the
occurrence of `"fast"` inside `"fast-track"`. -/
theorem c2_witness :
    ((2 : Nat) = 0 ∨ wordAt "a fast-track, not fast.".data 1 = false ∨
     wordAt "a fast-track, not fast.".data 2 = false) ∧
    (wordAt "a fast-track, not fast.".data 5 = false ∨
     wordAt "a fast-track, not fast.".data 6 = false) :=
  c2_whole_word.1 "a fast-track, not fast.".data ["fast".data] (by decide)
    ⟨"fast".data, 2, 6, "a fast-track, not fast.".data⟩ (by decide)

/-- Claim C6, counterexample: the scan of the spec's concrete scenario does
flag `"fast"` inside `"fast-track"` (at offset 44), and the standalone
`"not fast"` occurrence starts at 60, not 58 — the start offsets are
`[19, 28, 44, 60]` and no occurrence starts at 58. -/
theorem c6_counterexample :
    ((analyze_text
        "The system must be FAST and easy. This is a fast-track, not fast.".data
        ["easy".data, "fast".data, "secure".data]).flagged_terms.map
      (fun o => o.position_start)) = [19, 28, 44, 60] ∧
    58 ∉ ((analyze_text
        "The system must be FAST and easy. This is a fast-track, not fast.".data
        ["easy".data, "fast".data, "secure".data]).flagged_terms.map
      (fun o => o.position_start)) := by
  exact ⟨by decide, by decide⟩

/-- Claim C6 (amended): analyzing
`"The system must be FAST and easy. This is a fast-track, not fast."` with
the (sorted) effective lexicon `{easy, fast, secure}` yields exactly 4
occurrences in ascending start order — `FAST`@19, `easy`@28, `fast`@44 (the
one inside `"fast-track"`, included because the hyphen is a word boundary)
and `fast`@60 (the standalone `"not fast"` one) — and the sentence context
attached to the first two is `"The system must be FAST and easy."`. -/
theorem c6_scenario :
    (analyze_text
        "The system must be FAST and easy. This is a fast-track, not fast.".data
        ["easy".data, "fast".data, "secure".data]).total_flagged = 4 ∧
    ((analyze_text
        "The system must be FAST and easy. This is a fast-track, not fast.".data
        ["easy".data, "fast".data, "secure".data]).flagged_terms.map
      (fun o => (o.term, o.position_start, o.position_end))) =
      [("FAST".data, 19, 23), ("easy".data, 28, 32),
       ("fast".data, 44, 48), ("fast".data, 60, 64)] ∧
    (((analyze_text
        "The system must be FAST and easy. This is a fast-track, not fast.".data
        ["easy".data, "fast".data, "secure".data]).flagged_terms.map
      (fun o => o.sentence_context)).take 2) =
      ["The system must be FAST and easy.".data,
       "The system must be FAST and easy.".data] := by
  exact ⟨by decide, by decide, by decide⟩

/-- A confidence accepted by the validator lies in `[0, 1]` as a rational. -/
theorem Frac.inUnit_toRat {f : Frac} (h : f.inUnit) :
    0 ≤ f.toRat ∧ f.toRat ≤ 1 := by
  obtain ⟨hd, h0, h1⟩ := h
  unfold Frac.toRat
  have hd' : (0 : ℚ) < (f.den : ℚ) := by exact_mod_cast hd
  constructor
  · apply div_nonneg _ hd'.le
    exact_mod_cast h0
  · rw [div_le_one hd']
    exact_mod_cast h1

/-- The validator only accepts results whose confidence passed the unit
interval check. -/
theorem validate_context_evaluation_inUnit {j : Json} {r : EvalResult}
    (h : validate_context_evaluation j = some r) : r.confidence.inUnit := by
  unfold validate_context_evaluation at h
  split at h
  all_goals try (split at h)
  all_goals try (split_ifs at h with hin)
  all_goals try (exact absurd h Option.noConfusion)
  all_goals (obtain rfl := Option.some.inj h; exact hin)

/-- The suggestions validator only accepts lists of at least two entries. -/
theorem validate_suggestions_min_len {j : Json} {v : List (List Char)}
    (h : validate_suggestions j = some v) : 2 ≤ v.length := by
  unfold validate_suggestions at h
  split at h
  all_goals try (dsimp only at h; split_ifs at h with hlt)
  all_goals try (exact absurd h Option.noConfusion)
  all_goals
    (obtain rfl := Option.some.inj h; simp only [List.length_take]; omega)

/-- Claim C1: for every raw response string the single-item parse returns a
well-formed result (confidence in `[0, 1]`) and never raises; any parse or
validation failure yields the reserved fallback (`is_ambiguous = true`,
`confidence = 0.5`); and the suggestion parse likewise never returns an
empty list, substituting the three fallback template strings on any
failure.  (`evalParsed`/`suggestionsParsed` are exactly the code's
parse-and-validate pipelines before their `except` clauses, so
`... = none` states "a parse or validation failure occurred".) -/
theorem c1_fallback_totality (resp : List Char) :
    (0 ≤ (parse_evaluation_response resp).confidence.toRat ∧
     (parse_evaluation_response resp).confidence.toRat ≤ 1)
  ∧ (evalParsed resp = none →
      (parse_evaluation_response resp).is_ambiguous = true ∧
      (parse_evaluation_response resp).confidence.toRat = 1 / 2)
  ∧ (suggestionsParsed resp = none →
      parse_suggestions_response resp = get_fallback_suggestions [] ∧
      (parse_suggestions_response resp).length = 3)
  ∧ parse_suggestions_response resp ≠ [] := by
  have hhalf : (fallbackEval "Failed to parse LLM response".data).confidence.toRat
      = 1 / 2 := by
    unfold fallbackEval Frac.toRat
    norm_num
  refine ⟨?_, ?_, ?_, ?_⟩
  · unfold parse_evaluation_response
    cases hp : evalParsed resp with
    | none =>
      rw [hhalf]
      norm_num
    | some r =>
      obtain ⟨j, hj, hv⟩ := Option.bind_eq_some.mp hp
      exact Frac.inUnit_toRat (validate_context_evaluation_inUnit hv)
  · intro hp
    unfold parse_evaluation_response
    rw [hp]
    exact ⟨rfl, hhalf⟩
  · intro hs
    unfold parse_suggestions_response
    rw [hs]
    exact ⟨rfl, rfl⟩
  · unfold parse_suggestions_response
    cases hs : suggestionsParsed resp with
    | none => simp [get_fallback_suggestions]
    | some v =>
      obtain ⟨j, hj, hv⟩ := Option.bind_eq_some.mp hs
      have h2 := validate_suggestions_min_len hv
      simp only [ne_eq, List.take_eq_nil_iff]
      rintro (h3 | rfl)
      · exact (by decide : ¬(3 = 0)) h3
      · simp at h2

/-- Witness for `c1_fallback_totality` at the empty response, where both
pipelines fail and the fallbacks are returned. -/
theorem c1_witness :
    evalParsed "".data = none ∧
    suggestionsParsed "".data = none ∧
    ((parse_evaluation_response "".data).is_ambiguous = true ∧
     (parse_evaluation_response "".data).confidence.toRat = 1 / 2) ∧
    (parse_suggestions_response "".data = get_fallback_suggestions [] ∧
     (parse_suggestions_response "".data).length = 3) :=
  ⟨by decide, by decide,
   (c1_fallback_totality "".data).2.1 (by decide),
   (c1_fallback_totality "".data).2.2.1 (by decide)⟩

/-- The parser `_parse_batch_response` always returns exactly `expected` results: a
short array is padded with fallback entries, a long one truncated, and any
failure replaced by `expected` fallback entries. -/
theorem parse_batch_response_length (resp : List Char) (expected : Nat) :
    (parse_batch_response resp expected).length = expected := by
  unfold parse_batch_response
  split
  · split
    · simp only [List.length_take, List.length_append, List.length_replicate]
      omega
    · simp
  · simp

/-- The batch call `evaluate_batch_optimized` returns one result per input item. -/
theorem evaluate_batch_optimized_length (o : LLMOracle) (items : List EvalItem) :
    (evaluate_batch_optimized o items).length = items.length := by
  unfold evaluate_batch_optimized
  split_ifs with h
  · simp [List.isEmpty_iff.mp h]
  · split
    · exact parse_batch_response_length ..
    · simp [fallback_sequential_evaluate]

/-- A chunk's collected results always have the chunk's length, whether the
future delivered or raised. -/
theorem runChunk_length (o : LLMOracle) (chunk : List EvalItem) :
    (runChunk o chunk).length = chunk.length := by
  unfold runChunk
  split_ifs with h
  · simp
  · exact evaluate_batch_optimized_length ..

/-- Splitting into chunks loses and reorders nothing. -/
theorem chunksAux_flatten (m : Nat) :
    (l : List α) → (chunksAux m l).flatten = l
  | [] => by simp [chunksAux]
  | x :: xs => by
    rw [chunksAux]
    simp only [List.flatten_cons, chunksAux_flatten m (xs.drop m)]
    simp
termination_by l => l.length
decreasing_by simp only [List.length_drop, List.length_cons]; omega


/-- The splitter `chunksAux` produces chunks of the declared shape. -/
theorem chunksAux_shape (m : Nat) :
    (l : List α) → ChunkShape (m + 1) (chunksAux m l)
  | [] => by simp [chunksAux, ChunkShape]
  | x :: xs => by
    rw [chunksAux]
    cases hrest : chunksAux m (xs.drop m) with
    | nil =>
      show 0 < (x :: xs.take m).length ∧ (x :: xs.take m).length ≤ m + 1
      simp only [List.length_cons, List.length_take]
      omega
    | cons d ds =>
      have hshape := chunksAux_shape m (xs.drop m)
      rw [hrest] at hshape
      have hlen : m ≤ xs.length := by
        by_contra hlt
        push_neg at hlt
        rw [List.drop_eq_nil_of_le (by omega)] at hrest
        simp [chunksAux] at hrest
      exact ⟨by simp only [List.length_cons, List.length_take]; omega, hshape⟩
termination_by l => l.length
decreasing_by simp only [List.length_drop, List.length_cons]; omega

/-- The write loop is a splice: it replaces the slots
`[start, start + vals.length)` by `vals` and touches nothing else. -/
theorem writeAt_splice :
    ∀ (vals : List α) (acc : List (Option α)) (start : Nat),
      start + vals.length ≤ acc.length →
      writeAt acc start vals
        = acc.take start ++ vals.map some ++ acc.drop (start + vals.length)
  | [], acc, start, h => by
    simp [writeAt]
  | v :: vs, acc, start, h => by
    simp only [List.length_cons] at h
    have hstart : start < acc.length := by omega
    rw [writeAt, writeAt_splice vs _ (start + 1)
      (by simp only [List.length_set]; omega)]
    rw [List.set_eq_take_cons_drop _ hstart]
    have hA : (acc.take start).length = start := by
      simp only [List.length_take]; omega
    rw [List.take_append_eq_append_take, List.drop_append_eq_append_drop,
      List.take_of_length_le (by omega), hA]
    have h1 : start + 1 - start = 1 := by omega
    have h2 : start + 1 + vs.length - start = 1 + vs.length := by omega
    rw [h1, h2]
    simp only [List.take_succ_cons, List.take_zero, List.drop_succ_cons,
      List.drop_drop, List.map_cons]
    rw [List.drop_eq_nil_of_le (by simp only [List.length_take]; omega)]
    have h5 : List.drop (1 + vs.length) (some v :: List.drop (start + 1) acc)
        = List.drop (start + (vs.length + 1)) acc := by
      rw [show 1 + vs.length = vs.length + 1 from by omega, List.drop_succ_cons,
        List.drop_drop]
      congr 1
      omega
    simp [List.append_assoc, h5]

/-- The chunk-placement loop reassembles the chunks in input order: with
all previous chunks already placed (`pre`), placing the remaining chunks at
`idx * batchSize + offset` fills the `None` slots with exactly the
concatenation of the chunk results. -/
theorem placeChunks_flatten (o : LLMOracle) (bs : Nat) :
    ∀ (cs : List (List EvalItem)) (idx : Nat) (pre : List (Option EvalResult)),
      ChunkShape bs cs → pre.length = idx * bs →
      placeChunks o bs cs idx
        (pre ++ List.replicate ((cs.map List.length).sum) none)
      = pre ++ ((cs.map (runChunk o)).flatten.map some)
  | [], idx, pre, _, _ => by simp [placeChunks]
  | c :: cs, idx, pre, hshape, hlen => by
    rw [placeChunks]
    have hrc : (runChunk o c).length = c.length := runChunk_length o c
    have hsum : ((c :: cs).map List.length).sum
        = c.length + ((cs.map List.length).sum) := by simp
    have hwrite :
        writeAt (pre ++ List.replicate (((c :: cs).map List.length).sum) none)
          (idx * bs) (runChunk o c)
        = (pre ++ (runChunk o c).map some)
            ++ List.replicate ((cs.map List.length).sum) none := by
      rw [writeAt_splice _ _ _ (by
        simp only [List.length_append, List.length_replicate, hrc, hsum]
        omega)]
      rw [List.take_append_eq_append_take, List.drop_append_eq_append_drop]
      rw [List.take_of_length_le (le_of_eq hlen),
        List.drop_eq_nil_of_le (by rw [hlen]; omega)]
      have h1 : idx * bs - pre.length = 0 := by omega
      have h2 : idx * bs + (runChunk o c).length - pre.length = c.length := by
        rw [hrc]; omega
      rw [h1, h2, List.take_zero, List.drop_replicate, hsum]
      have h3 : c.length + (cs.map List.length).sum - c.length
          = (cs.map List.length).sum := by omega
      rw [h3]
      simp [List.append_assoc]
    rw [hwrite]
    cases cs with
    | nil =>
      rw [placeChunks]
      simp
    | cons c' cs' =>
      obtain ⟨hcbs, hshape'⟩ := hshape
      rw [placeChunks_flatten o bs (c' :: cs') (idx + 1)
        (pre ++ (runChunk o c).map some) hshape'
        (by simp [hlen, hrc, hcbs, Nat.succ_mul])]
      simp [List.append_assoc]

/-- The parallel path equals, slot for slot, the in-order concatenation of
the chunk results. -/
theorem parallel_batch_evaluate_eq (o : LLMOracle) (bs : Nat)
    (terms : List EvalItem) (hbs : 0 < bs) :
    parallel_batch_evaluate o bs terms
    = ((chunksOf bs terms).map (runChunk o)).flatten.map some := by
  unfold parallel_batch_evaluate
  have hflat : (chunksOf bs terms).flatten = terms := chunksAux_flatten _ _
  have hsum : ((chunksOf bs terms).map List.length).sum = terms.length := by
    rw [← List.length_flatten, hflat]
  have hshape : ChunkShape bs (chunksOf bs terms) := by
    have h := chunksAux_shape (bs - 1) terms
    have hbs' : bs - 1 + 1 = bs := by omega
    rw [hbs'] at h
    exact h
  have := placeChunks_flatten o bs (chunksOf bs terms) 0 [] hshape (by simp)
  simpa [hsum] using this

/-- Claim C3: batch classification returns exactly one result per input, in
input order — the batch reply is padded/truncated to the input length,
parallel chunk results are placed back at `chunk_index * batch_size +
offset` (so the result is the in-order concatenation of the chunks'
results), and a chunk that fails entirely contributes fallback entries
instead of failing the whole call. -/
theorem c3_batch_order (o : LLMOracle) (bs : Nat) (terms : List EvalItem)
    (hbs : 0 < bs) :
    (∀ resp n, (parse_batch_response resp n).length = n)
  ∧ (∃ res : List EvalResult,
      batch_evaluate o bs terms = res.map some ∧ res.length = terms.length)
  ∧ (batch_evaluate o bs terms).length = terms.length
  ∧ (bs < terms.length →
      batch_evaluate o bs terms
        = ((chunksOf bs terms).map (runChunk o)).flatten.map some)
  ∧ (∀ c, o.chunkCrash c = true →
      runChunk o c = List.replicate c.length chunkCrashFallback) := by
  have hpar : bs < terms.length →
      batch_evaluate o bs terms
        = ((chunksOf bs terms).map (runChunk o)).flatten.map some := by
    intro hgt
    unfold batch_evaluate
    have hne : ¬ terms.isEmpty = true := by
      cases terms with
      | nil => simp at hgt
      | cons a l => simp
    rw [if_neg hne, if_neg (by omega)]
    exact parallel_batch_evaluate_eq o bs terms hbs
  have hres : ∃ res : List EvalResult,
      batch_evaluate o bs terms = res.map some ∧ res.length = terms.length := by
    rcases le_or_lt terms.length bs with hle | hgt
    · unfold batch_evaluate
      split_ifs with h1
      · exact ⟨[], by simp, by simp [List.isEmpty_iff.mp h1]⟩
      · exact ⟨evaluate_batch_optimized o terms, rfl,
          evaluate_batch_optimized_length o terms⟩
    · refine ⟨((chunksOf bs terms).map (runChunk o)).flatten, hpar hgt, ?_⟩
      have hlen : ∀ c ∈ chunksOf bs terms, (runChunk o c).length = c.length :=
        fun c _ => runChunk_length o c
      calc ((chunksOf bs terms).map (runChunk o)).flatten.length
          = (((chunksOf bs terms).map (runChunk o)).map List.length).sum :=
            List.length_flatten _
        _ = ((chunksOf bs terms).map List.length).sum := by
            rw [List.map_map]
            exact congrArg List.sum
              (List.map_congr_left fun c hc => runChunk_length o c)
        _ = terms.length := by
            rw [← List.length_flatten]
            unfold chunksOf
            rw [chunksAux_flatten]
  refine ⟨parse_batch_response_length, hres, ?_, hpar, ?_⟩
  · obtain ⟨res, heq, hlen⟩ := hres
    rw [heq, List.length_map, hlen]
  · intro c hc
    unfold runChunk
    rw [if_pos hc]


/-- Witness for `c3_batch_order` at batch size 2 and three inputs, which
exercises the parallel path. -/
theorem c3_witness :
    (0 < 2) ∧
    (∃ res : List EvalResult,
      batch_evaluate sampleOracle 2 sampleItems = res.map some ∧
      res.length = sampleItems.length) ∧
    (batch_evaluate sampleOracle 2 sampleItems).length = sampleItems.length :=
  ⟨by decide, (c3_batch_order sampleOracle 2 sampleItems (by decide)).2.1,
   (c3_batch_order sampleOracle 2 sampleItems (by decide)).2.2.1⟩

/-- Witness for `c10_invariants` at the `FAST` occurrence of a concrete
scan. -/
theorem c10_witness :
    ((19 : Nat) < 23 ∧
     "FAST".data
       = ("The system must be FAST and easy.".data.drop 19).take (23 - 19)) ∧
    (analyze_text "The system must be FAST and easy.".data
        ["easy".data, "fast".data]).total_flagged
      = (analyze_text "The system must be FAST and easy.".data
        ["easy".data, "fast".data]).flagged_terms.length :=
  ⟨(c10_invariants "The system must be FAST and easy.".data
      ["easy".data, "fast".data] (by decide)).1
      ⟨"FAST".data, 19, 23, "The system must be FAST and easy.".data⟩ (by decide),
   (c10_invariants "The system must be FAST and easy.".data
      ["easy".data, "fast".data] (by decide)).2⟩

/-- The retry loop sends at most `remaining + 1` prompts. -/
theorem retryLoop_prompts_le (o : RetryOracle) (v : SchemaValidator) :
    ∀ (rem att : Nat) (pr : List Char),
      (retryLoop o v rem att pr).2.length ≤ rem + 1 := by
  intro rem
  induction rem with
  | zero =>
    intro att pr
    rw [retryLoop]
    cases o.invoke att pr with
    | err m => simp
    | ok s =>
      dsimp only
      cases hv : v (stripFencesContra s) with
      | ok r => simp
      | error e => simp
  | succ n ih =>
    intro att pr
    rw [retryLoop]
    cases o.invoke att pr with
    | err m => simp
    | ok s =>
      dsimp only
      cases hv : v (stripFencesContra s) with
      | ok r => simp
      | error e =>
        dsimp only
        simp only [List.length_cons]
        have := ih (att + 1) (get_json_correction_prompt (stripFencesContra s) e)
        omega

/-- Claim C4: the validated-retry invocation makes at most `1 + maxRetries`
attempts; a transport/provider failure (the `.err` reply, any non-validation
exception) returns the schema's empty default immediately with no further
attempt; and exhausting all attempts without a valid parse also returns the
empty default.  The embedding is a total function, so no parse or
validation exception can propagate. -/
theorem c4_retry_bounds (o : RetryOracle) (v : SchemaValidator) (mr : Nat)
    (p : List Char) :
    (invoke_llm_with_retry o v mr p).2.length ≤ 1 + mr
  ∧ (∀ rem att pr m, o.invoke att pr = LLMReply.err m →
      retryLoop o v rem att pr = (emptyReport, [pr]))
  ∧ ((∀ s r, v s ≠ Except.ok r) →
      (invoke_llm_with_retry o v mr p).1 = emptyReport) := by
  refine ⟨?_, ?_, ?_⟩
  · have := retryLoop_prompts_le o v mr 0 p
    unfold invoke_llm_with_retry
    omega
  · intro rem att pr m hm
    cases rem <;> (rw [retryLoop, hm])
  · intro hval
    have key : ∀ (rem att : Nat) (pr : List Char),
        (retryLoop o v rem att pr).1 = emptyReport := by
      intro rem
      induction rem with
      | zero =>
        intro att pr
        rw [retryLoop]
        cases o.invoke att pr with
        | err m => rfl
        | ok s =>
          dsimp only
          cases hv : v (stripFencesContra s) with
          | ok r => exact absurd hv (hval _ r)
          | error e => rfl
      | succ n ih =>
        intro att pr
        rw [retryLoop]
        cases o.invoke att pr with
        | err m => rfl
        | ok s =>
          dsimp only
          cases hv : v (stripFencesContra s) with
          | ok r => exact absurd hv (hval _ r)
          | error e =>
            exact ih (att + 1) _
    exact key mr 0 p

/-- Claim C5: a successful parse-and-validate returns immediately even if
retries remain; after a validation failure the next prompt is the
correction prompt built from the stripped invalid output and the validation
error (so with invalid output on attempt 1 and valid output on attempt 2,
the call succeeds on the second attempt having sent exactly the original
prompt and that correction prompt); and the correction prompt contains the
validation error text verbatim. -/
theorem c5_retry_feedback (o : RetryOracle) (v : SchemaValidator) (mr : Nat)
    (p : List Char) :
    (∀ s r, o.invoke 0 p = LLMReply.ok s →
      v (stripFencesContra s) = Except.ok r →
      invoke_llm_with_retry o v mr p = (r, [p]))
  ∧ (∀ s0 e0 s1 r1, 1 ≤ mr →
      o.invoke 0 p = LLMReply.ok s0 →
      v (stripFencesContra s0) = Except.error e0 →
      o.invoke 1 (get_json_correction_prompt (stripFencesContra s0) e0)
        = LLMReply.ok s1 →
      v (stripFencesContra s1) = Except.ok r1 →
      invoke_llm_with_retry o v mr p
        = (r1, [p, get_json_correction_prompt (stripFencesContra s0) e0]))
  ∧ (∀ bad e, ∃ pre post, get_json_correction_prompt bad e = pre ++ e ++ post) := by
  refine ⟨?_, ?_, ?_⟩
  · intro s r h1 h2
    unfold invoke_llm_with_retry
    rw [retryLoop]
    simp [h1, h2]
  · intro s0 e0 s1 r1 hmr h1 h2 h3 h4
    obtain ⟨k, rfl⟩ : ∃ k, mr = k + 1 := ⟨mr - 1, by omega⟩
    unfold invoke_llm_with_retry
    rw [retryLoop]
    simp only [h1, h2]
    rw [retryLoop]
    simp [h3, h4]
  · intro bad e
    refine ⟨"Your previous response failed validation with the following error: ".data,
      "\nYour previous invalid response was:\n".data ++ bad ++
        "\nPlease return a corrected response that is valid JSON strictly following the requested schema.".data,
      ?_⟩
    unfold get_json_correction_prompt
    simp [List.append_assoc]


/-- Witness for `c4_retry_bounds`: a transport failure stops after one
prompt with the empty default, and a never-validating run degrades to the
empty default within the attempt bound. -/
theorem c4_witness :
    retryLoop sampleErrOracle validateContradictionReport 2 0 "analyze".data
      = (emptyReport, ["analyze".data]) ∧
    (invoke_llm_with_retry sampleRetryOracle sampleFailValidator 2
      "analyze".data).1 = emptyReport ∧
    (invoke_llm_with_retry sampleRetryOracle sampleFailValidator 2
      "analyze".data).2.length ≤ 1 + 2 :=
  ⟨(c4_retry_bounds sampleErrOracle validateContradictionReport 2
      "analyze".data).2.1 2 0 "analyze".data "API timeout".data rfl,
   (c4_retry_bounds sampleRetryOracle sampleFailValidator 2
      "analyze".data).2.2 (fun _ _ h => Except.noConfusion h),
   (c4_retry_bounds sampleRetryOracle sampleFailValidator 2
      "analyze".data).1⟩

/-- Witness for `c5_retry_feedback` on the spec's mock scenario: invalid
JSON on attempt 1, valid on attempt 2, success on the second attempt with
the correction prompt as the second prompt sent. -/
theorem c5_witness :
    invoke_llm_with_retry sampleRetryOracle validateContradictionReport 2
      "analyze".data
    = (emptyReport,
       ["analyze".data,
        get_json_correction_prompt
          "\x7b\"contradictions\": \"not an array\"\x7d".data
          "contradictions field missing or not a list".data]) :=
  (c5_retry_feedback sampleRetryOracle validateContradictionReport 2
      "analyze".data).2.1
    "\x7b\"contradictions\": \"not an array\"\x7d".data
    "contradictions field missing or not a list".data
    "\x7b\"contradictions\": []\x7d".data emptyReport
    (by decide) rfl rfl rfl rfl

/-- Deleting a key removes its binding. -/
theorem cacheLookup_delete_self (c : List (String × CacheEntry)) (k : String) :
    cacheLookup (cacheDelete c k) k = none := by
  unfold cacheLookup cacheDelete
  rw [Option.map_eq_none', List.find?_eq_none]
  intro p hp
  have := (List.mem_filter.mp hp).2
  simp only [decide_eq_true_eq] at this
  simp [this]

/-- Deleting any key preserves the absence of another. -/
theorem cacheLookup_delete_none {c : List (String × CacheEntry)} {k : String}
    (k' : String) (h : cacheLookup c k = none) :
    cacheLookup (cacheDelete c k') k = none := by
  unfold cacheLookup cacheDelete
  unfold cacheLookup at h
  rw [Option.map_eq_none', List.find?_eq_none]
  rw [Option.map_eq_none', List.find?_eq_none] at h
  intro p hp
  exact h p (List.mem_filter.mp hp).1

/-- The helper `_invalidate_cache` always removes the owner's own cache entry. -/
theorem invalidate_lookup_self (cache : List (String × CacheEntry))
    (owner : Option String) :
    cacheLookup (invalidate_cache cache owner) (cacheKey owner) = none := by
  unfold invalidate_cache
  dsimp only
  cases owner with
  | none => exact cacheLookup_delete_self cache _
  | some o =>
    dsimp only
    by_cases ho : o = ""
    · rw [if_pos ho]
      exact cacheLookup_delete_self cache _
    · rw [if_neg ho]
      exact cacheLookup_delete_none _ (cacheLookup_delete_self cache _)

/-- The helper `_invalidate_cache` always removes the global cache entry (when the
owner id is `None` or empty, the owner's key *is* the global key). -/
theorem invalidate_lookup_global (cache : List (String × CacheEntry))
    (owner : Option String) :
    cacheLookup (invalidate_cache cache owner) "lexicon_global" = none := by
  unfold invalidate_cache
  dsimp only
  cases owner with
  | none => exact cacheLookup_delete_self cache _
  | some o =>
    dsimp only
    by_cases ho : o = ""
    · rw [if_pos ho]
      have : cacheKey (some o) = "lexicon_global" := by
        unfold cacheKey
        dsimp only
        rw [if_pos ho]
        rfl
      rw [← this]
      exact cacheLookup_delete_self cache _
    · rw [if_neg ho]
      exact cacheLookup_delete_self _ _

/-- Claim C7: `add_term` normalizes its argument (lowercase + strip — the
two commute, so this is also trim-then-lowercase); an empty normalized term
or an existing identical `(term, type, owner_id)` row yields `False` with
the state untouched (no row persisted, no cache entry invalidated);
otherwise the normalized row is appended and both the owner's cache entry
and the global cache entry are invalidated. -/
theorem c7_add_term (s : LexState) (term : String) (owner : Option String)
    (term_type : String) (category : Option String) :
    (pyStripStr (pyLowerStr term) = "" →
      add_term s term owner term_type category = (false, s))
  ∧ ((∃ r ∈ s.db, r.term = pyStripStr (pyLowerStr term) ∧ r.type = term_type ∧
        r.owner_id = owner) →
      add_term s term owner term_type category = (false, s))
  ∧ (pyStripStr (pyLowerStr term) ≠ "" →
      (∀ r ∈ s.db, ¬(r.term = pyStripStr (pyLowerStr term) ∧ r.type = term_type ∧
        r.owner_id = owner)) →
      (add_term s term owner term_type category).1 = true
      ∧ (add_term s term owner term_type category).2.db
          = s.db ++ [⟨pyStripStr (pyLowerStr term), term_type, owner, category⟩]
      ∧ cacheLookup (add_term s term owner term_type category).2.cache
          (cacheKey owner) = none
      ∧ cacheLookup (add_term s term owner term_type category).2.cache
          "lexicon_global" = none) := by
  refine ⟨?_, ?_, ?_⟩
  · intro h
    unfold add_term
    rw [if_pos h]
  · intro ⟨r, hr, h1, h2, h3⟩
    unfold add_term
    dsimp only
    split_ifs with he hf
    · rfl
    · rfl
    · exfalso
      apply hf
      rw [Option.isSome_iff_exists]
      have : s.db.find? (fun r' =>
          r'.term == pyStripStr (pyLowerStr term) && r'.type == term_type &&
            r'.owner_id == owner) |>.isSome := by
        rw [List.find?_isSome]
        exact ⟨r, hr, by simp [h1, h2, h3]⟩
      rwa [Option.isSome_iff_exists] at this
  · intro hne hall
    unfold add_term
    dsimp only
    rw [if_neg hne]
    have hf : (s.db.find? (fun r' =>
        r'.term == pyStripStr (pyLowerStr term) && r'.type == term_type &&
          r'.owner_id == owner)).isSome = false := by
      rw [Bool.eq_false_iff, ne_eq, List.find?_isSome]
      rintro ⟨r, hr, hp⟩
      simp only [Bool.and_eq_true, beq_iff_eq] at hp
      exact hall r hr ⟨hp.1.1, hp.1.2, hp.2⟩
    rw [if_neg (by simp [hf])]
    exact ⟨rfl, rfl, invalidate_lookup_self s.cache owner,
      invalidate_lookup_global s.cache owner⟩

/-- Membership in the computed effective lexicon of an owner with a truthy
(non-empty) id: a global or owner-included term not owner-excluded (all
compared lowercased). -/
theorem mem_computeLexicon {db : List LexRow} {owner x : String}
    (ho : owner ≠ "") :
    x ∈ computeLexicon db (some owner) ↔
      ((∃ r ∈ db, (r.type = "global" ∧ r.owner_id = none) ∧
          pyLowerStr r.term = x) ∨
       (∃ r ∈ db, (r.type = "custom_include" ∧ r.owner_id = some owner) ∧
          pyLowerStr r.term = x)) ∧
      ¬(∃ r ∈ db, (r.type = "custom_exclude" ∧ r.owner_id = some owner) ∧
          pyLowerStr r.term = x) := by
  unfold computeLexicon
  dsimp only
  rw [if_neg ho, Finset.mem_sort]
  simp only [Finset.mem_sdiff, Finset.mem_union, List.mem_toFinset,
    List.mem_map, List.mem_filter, decide_eq_true_eq]
  aesop

/-- The read `get_lexicon` never touches the database. -/
theorem get_lexicon_db (s : LexState) (ow : Option String) (now : Nat) :
    (get_lexicon s ow now).2.db = s.db := by
  unfold get_lexicon
  dsimp only
  cases cacheLookup s.cache (cacheKey ow) with
  | none => rfl
  | some e => dsimp only; split_ifs <;> rfl

/-- On a cache miss, `get_lexicon` returns the freshly computed lexicon. -/
theorem get_lexicon_terms_of_miss (s : LexState) (ow : Option String)
    (now : Nat) (h : cacheLookup s.cache (cacheKey ow) = none) :
    (get_lexicon s ow now).1 = computeLexicon s.db ow := by
  unfold get_lexicon
  dsimp only
  rw [h]

/-- On a consistent state, `get_lexicon` always returns the lexicon
computable from the current database, cache hit or not. -/
theorem get_lexicon_terms_of_consistent (s : LexState) (ow : Option String)
    (now : Nat) (hcons : CacheConsistent s) :
    (get_lexicon s ow now).1 = computeLexicon s.db ow := by
  unfold get_lexicon
  dsimp only
  cases hl : cacheLookup s.cache (cacheKey ow) with
  | none => rfl
  | some e =>
    dsimp only
    split_ifs with hfresh
    · exact hcons ow e hl
    · rfl

/-- Claim C8 (amended): cache invalidation is synchronous with writes — for
every owner with a truthy (non-empty) id, starting from a consistent state
(cache entries agree with the database, rows are unique and normalized) and
a normalized term `x` that is neither a global term nor excluded for the
owner, `add_term(x, owner, custom_include)` followed immediately by
`get_lexicon(owner)` returns a list containing `x`, and a subsequent
`remove_term(x, owner, custom_include)` followed by `get_lexicon(owner)`
returns a list without `x`, at arbitrary query times within or beyond the
TTL.  (For the empty owner id, `get_lexicon`'s `if owner_id:` truthiness
guard skips the owner-specific rows, so the claim fails —
see the counterexample.) -/
theorem c8_cache_write_sync (s : LexState) (x owner : String)
    (cat : Option String) (now2 now4 : Nat) (howner : owner ≠ "")
    (hlow : pyLowerStr x = x) (hstrip : pyStripStr x = x) (hne : x ≠ "")
    (hnodup : DbNoDup s.db) (hnorm : DbNormalized s.db)
    (hcons : CacheConsistent s)
    (hglob : ∀ r ∈ s.db,
      ¬((r.type = "global" ∧ r.owner_id = none) ∧ pyLowerStr r.term = x))
    (hexcl : ∀ r ∈ s.db,
      ¬((r.type = "custom_exclude" ∧ r.owner_id = some owner) ∧
        pyLowerStr r.term = x)) :
    x ∈ (get_lexicon (add_term s x (some owner) "custom_include" cat).2
          (some owner) now2).1
  ∧ x ∉ (get_lexicon
        (remove_term
          (get_lexicon (add_term s x (some owner) "custom_include" cat).2
            (some owner) now2).2
          x (some owner) "custom_include").2
        (some owner) now4).1 := by
  have hxnorm : pyStripStr (pyLowerStr x) = x := by rw [hlow, hstrip]
  have hpred_iff : ∀ r : LexRow,
      (r.term == x && r.type == "custom_include" &&
        r.owner_id == some owner) = true ↔
      (r.term = x ∧ r.type = "custom_include" ∧ r.owner_id = some owner) := by
    intro r
    simp [Bool.and_eq_true, beq_iff_eq, and_assoc]
  have hadd_cases :
      (add_term s x (some owner) "custom_include" cat = (false, s) ∧
        ∃ r ∈ s.db, (r.term == x && r.type == "custom_include" &&
          r.owner_id == some owner) = true)
    ∨ ((add_term s x (some owner) "custom_include" cat).2
          = ⟨s.db ++ [⟨x, "custom_include", some owner, cat⟩],
             invalidate_cache s.cache (some owner)⟩
        ∧ ∀ r ∈ s.db, ¬ (r.term == x && r.type == "custom_include" &&
            r.owner_id == some owner) = true) := by
    unfold add_term
    dsimp only
    rw [hxnorm, if_neg hne]
    by_cases hdup : (s.db.find? (fun r => r.term == x &&
        r.type == "custom_include" && r.owner_id == some owner)).isSome
    · left
      exact ⟨by rw [if_pos hdup], List.find?_isSome.mp hdup⟩
    · right
      refine ⟨by rw [if_neg hdup], ?_⟩
      intro r hr hp
      exact hdup (List.find?_isSome.mpr ⟨r, hr, hp⟩)
  -- the state after the add, its database, and the key facts about it
  rcases hadd_cases with ⟨hadd, rdup, hrdup, hpdup⟩ | ⟨hs1, hnodup_row⟩
  all_goals constructor
  -- Part 1, duplicate case: the row already exists; consistency serves x.
  · rw [hadd, get_lexicon_terms_of_consistent s _ now2 hcons,
      mem_computeLexicon howner]
    obtain ⟨ht, hty, how⟩ := (hpred_iff rdup).mp hpdup
    refine ⟨Or.inr ⟨rdup, hrdup, ⟨hty, how⟩, by rw [ht, hlow]⟩, ?_⟩
    rintro ⟨r', hr', hprops⟩
    exact hexcl r' hr' hprops
  -- Part 2, duplicate case.
  · rw [hadd]
    have hdb2 : (get_lexicon s (some owner) now2).2.db = s.db :=
      get_lexicon_db s _ now2
    have hfound : ∃ r ∈ (get_lexicon s (some owner) now2).2.db,
        (r.term == x && r.type == "custom_include" &&
          r.owner_id == some owner) = true := by
      rw [hdb2]; exact ⟨rdup, hrdup, hpdup⟩
    have hrem : remove_term (get_lexicon s (some owner) now2).2 x
        (some owner) "custom_include"
        = (true,
           ⟨(get_lexicon s (some owner) now2).2.db.eraseP
              (fun r => r.term == x && r.type == "custom_include" &&
                r.owner_id == some owner),
            invalidate_cache (get_lexicon s (some owner) now2).2.cache
              (some owner)⟩) := by
      unfold remove_term
      dsimp only
      rw [hxnorm, if_pos (List.find?_isSome.mpr hfound)]
    rw [hrem, get_lexicon_terms_of_miss _ _ now4
      (invalidate_lookup_self _ _), mem_computeLexicon howner]
    rintro ⟨hor, -⟩
    obtain ⟨a, ha, hpa⟩ := hfound
    obtain ⟨a', l₁, l₂, hl₁, hpa', hdb, herase⟩ :=
      @List.exists_of_eraseP LexRow
        (fun r => r.term == x && r.type == "custom_include" &&
          r.owner_id == some owner) _ _ ha hpa
    rcases hor with ⟨r, hr, hprops, hterm⟩ | ⟨r, hr, hprops, hterm⟩
    · -- a global row producing x: contradicts hglob
      have hr' : r ∈ ((get_lexicon s (some owner) now2).2.db.eraseP
          (fun r => r.term == x && r.type == "custom_include" &&
            r.owner_id == some owner)) := hr
      have hrs : r ∈ s.db := by
        rw [← hdb2]
        exact (List.eraseP_sublist _).subset hr'
      exact hglob r hrs ⟨hprops, hterm⟩
    · -- an include row producing x survived the erase: contradicts uniqueness
      have hr' : r ∈ ((get_lexicon s (some owner) now2).2.db.eraseP
          (fun r => r.term == x && r.type == "custom_include" &&
            r.owner_id == some owner)) := hr
      have hrmem : r ∈ l₁ ++ l₂ := by
        rw [← herase]
        exact hr'
      have hrs : r ∈ s.db := by
        rw [← hdb2, hdb]
        rcases List.mem_append.mp hrmem with h | h
        · exact List.mem_append.mpr (Or.inl h)
        · exact List.mem_append.mpr (Or.inr (List.mem_cons_of_mem _ h))
      have hpr : (r.term == x && r.type == "custom_include" &&
          r.owner_id == some owner) = true := by
        rw [hpred_iff]
        have : pyLowerStr r.term = r.term := hnorm r hrs
        rw [← this]
        exact ⟨hterm, hprops.1, hprops.2⟩
      rcases List.mem_append.mp hrmem with h | h
      · exact hl₁ r h hpr
      · have hnodup2 : ((l₁ ++ a' :: l₂).Pairwise
            (fun a b => ¬(a.term = b.term ∧ a.type = b.type ∧
              a.owner_id = b.owner_id))) := by
          rw [← hdb]
          rw [hdb2] at *
          exact hnodup
        have hR := ((List.pairwise_cons.mp
          (List.pairwise_append.mp hnodup2).2.1).1) r h
        obtain ⟨ht1, ht2, ht3⟩ := (hpred_iff a').mp hpa'
        obtain ⟨hu1, hu2, hu3⟩ := (hpred_iff r).mp hpr
        exact hR ⟨by rw [ht1, hu1], by rw [ht2, hu2], by rw [ht3, hu3]⟩
  -- Part 1, fresh-insert case: the owner's cache entry is gone, so the new
  -- database is consulted and contains the inserted row.
  · rw [hs1, get_lexicon_terms_of_miss _ _ now2
      (invalidate_lookup_self _ _), mem_computeLexicon howner]
    refine ⟨Or.inr ⟨⟨x, "custom_include", some owner, cat⟩,
      List.mem_append.mpr (Or.inr (List.mem_singleton.mpr rfl)),
      ⟨rfl, rfl⟩, hlow⟩, ?_⟩
    rintro ⟨r', hr', hprops, hterm⟩
    rcases List.mem_append.mp hr' with h | h
    · exact hexcl r' h ⟨hprops, hterm⟩
    · rw [List.mem_singleton.mp h] at hprops
      have hbad : ("custom_include" : String) = "custom_exclude" := hprops.1
      exact absurd hbad (by decide)
  -- Part 2, fresh-insert case.
  · rw [hs1]
    have hdb2 : (get_lexicon
        (⟨s.db ++ [⟨x, "custom_include", some owner, cat⟩],
          invalidate_cache s.cache (some owner)⟩ : LexState)
        (some owner) now2).2.db
        = s.db ++ [⟨x, "custom_include", some owner, cat⟩] :=
      get_lexicon_db _ _ now2
    have hfound : ∃ r ∈ (get_lexicon
        (⟨s.db ++ [⟨x, "custom_include", some owner, cat⟩],
          invalidate_cache s.cache (some owner)⟩ : LexState)
        (some owner) now2).2.db,
        (r.term == x && r.type == "custom_include" &&
          r.owner_id == some owner) = true := by
      rw [hdb2]
      exact ⟨⟨x, "custom_include", some owner, cat⟩,
        List.mem_append.mpr (Or.inr (List.mem_singleton.mpr rfl)),
        (hpred_iff _).mpr ⟨rfl, rfl, rfl⟩⟩
    have hrem : remove_term (get_lexicon
        (⟨s.db ++ [⟨x, "custom_include", some owner, cat⟩],
          invalidate_cache s.cache (some owner)⟩ : LexState)
        (some owner) now2).2 x (some owner) "custom_include"
        = (true,
           ⟨(get_lexicon
              (⟨s.db ++ [⟨x, "custom_include", some owner, cat⟩],
                invalidate_cache s.cache (some owner)⟩ : LexState)
              (some owner) now2).2.db.eraseP
              (fun r => r.term == x && r.type == "custom_include" &&
                r.owner_id == some owner),
            invalidate_cache (get_lexicon
              (⟨s.db ++ [⟨x, "custom_include", some owner, cat⟩],
                invalidate_cache s.cache (some owner)⟩ : LexState)
              (some owner) now2).2.cache (some owner)⟩) := by
      unfold remove_term
      dsimp only
      rw [hxnorm, if_pos (List.find?_isSome.mpr hfound)]
    rw [hrem, get_lexicon_terms_of_miss _ _ now4
      (invalidate_lookup_self _ _), mem_computeLexicon howner]
    rintro ⟨hor, -⟩
    obtain ⟨a, ha, hpa⟩ := hfound
    obtain ⟨a', l₁, l₂, hl₁, hpa', hdb, herase⟩ :=
      @List.exists_of_eraseP LexRow
        (fun r => r.term == x && r.type == "custom_include" &&
          r.owner_id == some owner) _ _ ha hpa
    have hnodup1 : List.Pairwise
        (fun a b : LexRow => ¬(a.term = b.term ∧ a.type = b.type ∧
          a.owner_id = b.owner_id))
        (s.db ++ [(⟨x, "custom_include", some owner, cat⟩ : LexRow)]) := by
      rw [List.pairwise_append]
      refine ⟨hnodup, by simp, ?_⟩
      intro ra hra rb hrb
      rw [List.mem_singleton] at hrb
      subst hrb
      rintro ⟨h1, h2, h3⟩
      exact hnodup_row ra hra ((hpred_iff ra).mpr ⟨h1, h2, h3⟩)
    rcases hor with ⟨r, hr, hprops, hterm⟩ | ⟨r, hr, hprops, hterm⟩
    · have hr' : r ∈ ((get_lexicon
          (⟨s.db ++ [⟨x, "custom_include", some owner, cat⟩],
            invalidate_cache s.cache (some owner)⟩ : LexState)
          (some owner) now2).2.db.eraseP
          (fun r => r.term == x && r.type == "custom_include" &&
            r.owner_id == some owner)) := hr
      have hrs : r ∈ s.db ++ [⟨x, "custom_include", some owner, cat⟩] := by
        rw [← hdb2]
        exact (List.eraseP_sublist _).subset hr'
      rcases List.mem_append.mp hrs with h | h
      · exact hglob r h ⟨hprops, hterm⟩
      · rw [List.mem_singleton.mp h] at hprops
        have hbad : ("custom_include" : String) = "global" := hprops.1
        exact absurd hbad (by decide)
    · have hr' : r ∈ ((get_lexicon
          (⟨s.db ++ [⟨x, "custom_include", some owner, cat⟩],
            invalidate_cache s.cache (some owner)⟩ : LexState)
          (some owner) now2).2.db.eraseP
          (fun r => r.term == x && r.type == "custom_include" &&
            r.owner_id == some owner)) := hr
      have hrmem : r ∈ l₁ ++ l₂ := by
        rw [← herase]
        exact hr'
      have hrs : r ∈ s.db ++ [⟨x, "custom_include", some owner, cat⟩] := by
        rw [← hdb2, hdb]
        rcases List.mem_append.mp hrmem with h | h
        · exact List.mem_append.mpr (Or.inl h)
        · exact List.mem_append.mpr (Or.inr (List.mem_cons_of_mem _ h))
      have hnormr : pyLowerStr r.term = r.term := by
        rcases List.mem_append.mp hrs with h | h
        · exact hnorm r h
        · rw [List.mem_singleton.mp h]
          exact hlow
      have hpr : (r.term == x && r.type == "custom_include" &&
          r.owner_id == some owner) = true := by
        rw [hpred_iff, ← hnormr]
        exact ⟨hterm, hprops.1, hprops.2⟩
      rcases List.mem_append.mp hrmem with h | h
      · exact hl₁ r h hpr
      · have hnodup2 : ((l₁ ++ a' :: l₂).Pairwise
            (fun a b => ¬(a.term = b.term ∧ a.type = b.type ∧
              a.owner_id = b.owner_id))) := by
          rw [← hdb, hdb2]
          exact hnodup1
        have hR := ((List.pairwise_cons.mp
          (List.pairwise_append.mp hnodup2).2.1).1) r h
        obtain ⟨ht1, ht2, ht3⟩ := (hpred_iff a').mp hpa'
        obtain ⟨hu1, hu2, hu3⟩ := (hpred_iff r).mp hpr
        exact hR ⟨by rw [ht1, hu1], by rw [ht2, hu2], by rw [ht3, hu3]⟩

/-- Witness for `c7_add_term`'s success branch at
`add_term("  Fast  ", "u", custom_include)` on the empty state. -/
theorem c7_witness :
    pyStripStr (pyLowerStr "  Fast  ") ≠ "" ∧
    ((add_term ⟨[], []⟩ "  Fast  " (some "u") "custom_include" none).1 = true
     ∧ (add_term ⟨[], []⟩ "  Fast  " (some "u") "custom_include" none).2.db
         = (⟨[], []⟩ : LexState).db ++
           [⟨pyStripStr (pyLowerStr "  Fast  "), "custom_include", some "u", none⟩]
     ∧ cacheLookup
         (add_term ⟨[], []⟩ "  Fast  " (some "u") "custom_include" none).2.cache
         (cacheKey (some "u")) = none
     ∧ cacheLookup
         (add_term ⟨[], []⟩ "  Fast  " (some "u") "custom_include" none).2.cache
         "lexicon_global" = none) :=
  ⟨by decide,
   (c7_add_term ⟨[], []⟩ "  Fast  " (some "u") "custom_include" none).2.2
     (by decide) (fun r hr => absurd hr (List.not_mem_nil r))⟩

/-- Claim C8, counterexample: at the empty-string owner id the claim's
add-then-get half fails on the code.  On an empty state,
`add_term("x", "", custom_include)` succeeds (the row is persisted and the
cache invalidated), but the immediately following `get_lexicon("")` falls
into the falsy branch of the `if owner_id:` guard and returns the
global-only lexicon — the empty list — which does not contain `"x"`. -/
theorem c8_counterexample :
    (add_term ⟨[], []⟩ "x" (some "") "custom_include" none).1 = true ∧
    "x" ∉ (get_lexicon
      (add_term ⟨[], []⟩ "x" (some "") "custom_include" none).2
      (some "") 0).1 := by
  constructor
  · decide
  · have hmiss : cacheLookup
        (add_term ⟨[], []⟩ "x" (some "") "custom_include" none).2.cache
        (cacheKey (some "")) = none := by decide
    rw [get_lexicon_terms_of_miss _ _ 0 hmiss]
    unfold computeLexicon
    dsimp only
    rw [if_pos rfl]
    have hglob : ((add_term ⟨[], []⟩ "x" (some "") "custom_include" none).2.db.filter
        (fun r => r.type = "global" ∧ r.owner_id = none)) = [] := by decide
    rw [hglob]
    simp [Finset.sort_empty]

/-- Witness for `c8_cache_write_sync` on the empty state with term `"x"`
and owner `"u"`. -/
theorem c8_witness :
    "x" ∈ (get_lexicon
        (add_term ⟨[], []⟩ "x" (some "u") "custom_include" none).2
        (some "u") 0).1
  ∧ "x" ∉ (get_lexicon
        (remove_term
          (get_lexicon
            (add_term ⟨[], []⟩ "x" (some "u") "custom_include" none).2
            (some "u") 0).2
          "x" (some "u") "custom_include").2
        (some "u") 0).1 :=
  c8_cache_write_sync ⟨[], []⟩ "x" "u" none 0 0 (by decide) (by decide)
    (by decide) (by decide) List.Pairwise.nil
    (fun r hr => absurd hr (List.not_mem_nil r))
    (fun ow entry h => by simp [cacheLookup] at h)
    (fun r hr => absurd hr (List.not_mem_nil r))
    (fun r hr => absurd hr (List.not_mem_nil r))

end Clarity
